import Mathlib

/-!
# SimpleVector (simple-vector/simple_vector.h)

A shallow embedding of the class template `SimpleVector<Type>` and of the free
comparison operators of `simple_vector.h`.

* A storage slot is an `Option α`: `some x` is a slot holding the value `x`,
  `none` is a slot whose value is unspecified (never written since the
  allocation, or moved from).
* The owning buffer `ArrayPtr<Type>` (array_ptr.h) is a list of slots; its
  length is the number of slots that were really allocated.  An allocation
  always succeeds.
* The standard algorithms are the element loops the standard prescribes, so
  that overlapping ranges behave as in C++.
* Iterators (`Type*`) are offsets from `items_.Get()`.
* The parameter `value` of both `Insert` overloads is a reference (`ValueRef`): it is bound
  to an object outside the storage or to an element of the container itself, and it is read
  at the assignment that stores it, after whatever the function has done to the storage by
  then.  The parameter `item` of `PushBack` is the value that the referenced object has at
  the call: the copy overload reads it before it changes the storage, and the move overload
  is modelled for an object outside the storage.
* Every operation returns a `Result`: `.error .undefined_behaviour` when the
  C++ code reads or writes outside the allocated storage (or overflows a signed
  integer), `.error .out_of_range` when `At` throws, `.error .assertion` when an
  `assert` fails, `.error .unspecified` when a comparison reads a slot that
  holds no value.
* `size_t` is 64 bits wide and `int` 32 bits wide (LP64).  Values of type
  `size_t` are natural numbers: the sums and products of `size_t` values in the
  class (`2 * capacity_`, `size_ + 1`) stay below `2^64` whenever the operands
  count slots of a buffer that exists.  The conversion `static_cast<int>(size_)`
  of `PushBack` and the `int` product that follows are modelled bit-exactly.

The file has three parts: the definitions, lemmas on the loops, on each member
function and on the comparison operators (among them `Reachable.valid`: every
state that the interface can build satisfies the class invariant `Valid`, and
`Valid.has_elements`: a container that satisfies it has an element sequence),
and the claims.
-/

namespace SimpleVec

/-- The ways in which a call can fail to return normally. -/
inductive Fault where
  /-- The exception `std::out_of_range` was thrown -/
  | out_of_range
  /-- An `assert` failed -/
  | assertion
  /-- Storage was accessed outside its bounds, or a signed integer overflowed -/
  | undefined_behaviour
  /-- The result depends on a slot whose value is unspecified -/
  | unspecified
  deriving DecidableEq, Repr

/-- Outcome of a call: a value, or the fault that stopped it. -/
abbrev Result (β : Type) := Except Fault β

/-! ## The owning buffer -/

/-- Modelled from the spec: the owning buffer `ArrayPtr<Type>` of array_ptr.h, a file that is
not among the sources.  Spec 4.1: it owns storage for exactly `n` elements and gives raw
pointer access without bounds checking.  The list has one entry per allocated slot. -/
abbrev ArrayPtr (α : Type) := List (Option α)

/-- Modelled from the spec: `ArrayPtr(n)`, spec 4.1 `allocate(n)`: storage for exactly `n`
elements (`n = 0` gives the empty buffer); the state of the new slots is unspecified. -/
def ArrayPtr.alloc {α : Type} (n : Nat) : ArrayPtr α := List.replicate n none

/-- Modelled from the spec: reading `raw()[i]`; there is no bounds checking (spec 4.1), so a
read outside the allocation is undefined behaviour. -/
def ArrayPtr.read {α : Type} (p : ArrayPtr α) (i : Nat) : Result (Option α) :=
  match p[i]? with
  | some s => .ok s
  | none => .error .undefined_behaviour

/-- Modelled from the spec: assigning to `raw()[i]`; a write outside the allocation is
undefined behaviour. -/
def ArrayPtr.write {α : Type} (p : ArrayPtr α) (i : Nat) (s : Option α) : Result (ArrayPtr α) :=
  if i < p.length then .ok (p.set i s) else .error .undefined_behaviour

/-- Modelled from the spec: `a.swap(b)`, spec 4.1: exchanges the owned storage of two
buffers; no element is touched. -/
def ArrayPtr.swap {α : Type} (a b : ArrayPtr α) : ArrayPtr α × ArrayPtr α := (b, a)

/-- Modelled from the spec: the move assignment `a = std::move(b)` of the owning buffer
(spec 3: ownership is transferred, "the source becomes buffer-less").  Returns the new
states of `a` and `b`. -/
def ArrayPtr.move_assign {α : Type} (_a b : ArrayPtr α) : ArrayPtr α × ArrayPtr α := (b, [])

/-- Reading a slot for its value: out of bounds is undefined behaviour, and the value of an
unspecified slot is not a value the result may depend on. -/
def ArrayPtr.read_value {α : Type} (p : ArrayPtr α) (i : Nat) : Result α :=
  match p[i]? with
  | some (some x) => .ok x
  | some none => .error .unspecified
  | none => .error .undefined_behaviour

/-! ## Standard algorithms, as the loops the standard prescribes -/

/-- Loop of `std::copy`: `n` times `*d_first++ = *first++`, from one buffer into another. -/
def copy_loop {α : Type} (src : ArrayPtr α) : Nat → Nat → ArrayPtr α → Nat → Result (ArrayPtr α)
  | 0, _, dst, _ => .ok dst
  | n + 1, first, dst, d_first =>
    match ArrayPtr.read src first with
    | .error e => .error e
    | .ok x =>
      match ArrayPtr.write dst d_first x with
      | .error e => .error e
      | .ok dst1 => copy_loop src n (first + 1) dst1 (d_first + 1)

/-- The call `std::copy(src + first, src + last, dst + d_first)` between two buffers. -/
def std_copy {α : Type} (src : ArrayPtr α) (first last : Nat) (dst : ArrayPtr α) (d_first : Nat) :
    Result (ArrayPtr α) :=
  if last < first then .error .undefined_behaviour
  else copy_loop src (last - first) first dst d_first

/-- Loop of `std::move` (the algorithm): `n` times `*d_first++ = std::move(*first++)`, from
one buffer into another.  A moved-from slot is left unspecified.  Returns the source and the
destination. -/
def move_loop {α : Type} : Nat → ArrayPtr α → Nat → ArrayPtr α → Nat →
    Result (ArrayPtr α × ArrayPtr α)
  | 0, src, _, dst, _ => .ok (src, dst)
  | n + 1, src, first, dst, d_first =>
    match ArrayPtr.read src first with
    | .error e => .error e
    | .ok x =>
      match ArrayPtr.write dst d_first x with
      | .error e => .error e
      | .ok dst1 =>
        match ArrayPtr.write src first none with
        | .error e => .error e
        | .ok src1 => move_loop n src1 (first + 1) dst1 (d_first + 1)

/-- The call `std::move(src + first, src + last, dst + d_first)` between two buffers. -/
def std_move {α : Type} (src : ArrayPtr α) (first last : Nat) (dst : ArrayPtr α) (d_first : Nat) :
    Result (ArrayPtr α × ArrayPtr α) :=
  if last < first then .error .undefined_behaviour
  else move_loop (last - first) src first dst d_first

/-- Loop of `std::move` inside one buffer: `n` times `*d_first++ = std::move(*first++)`. -/
def move_within_loop {α : Type} : Nat → ArrayPtr α → Nat → Nat → Result (ArrayPtr α)
  | 0, buf, _, _ => .ok buf
  | n + 1, buf, first, d_first =>
    match ArrayPtr.read buf first with
    | .error e => .error e
    | .ok x =>
      match ArrayPtr.write buf d_first x with
      | .error e => .error e
      | .ok buf1 =>
        match ArrayPtr.write buf1 first none with
        | .error e => .error e
        | .ok buf2 => move_within_loop n buf2 (first + 1) (d_first + 1)

/-- The call `std::move(buf + first, buf + last, buf + d_first)` inside one buffer. -/
def std_move_within {α : Type} (buf : ArrayPtr α) (first last d_first : Nat) :
    Result (ArrayPtr α) :=
  if last < first then .error .undefined_behaviour
  else move_within_loop (last - first) buf first d_first

/-- Loop of `std::copy_backward` inside one buffer: `n` times `*(--d_last) = *(--last)`. -/
def copy_backward_loop {α : Type} : Nat → ArrayPtr α → Nat → Nat → Result (ArrayPtr α)
  | 0, buf, _, _ => .ok buf
  | n + 1, buf, last, d_last =>
    match ArrayPtr.read buf (last - 1) with
    | .error e => .error e
    | .ok x =>
      match ArrayPtr.write buf (d_last - 1) x with
      | .error e => .error e
      | .ok buf1 => copy_backward_loop n buf1 (last - 1) (d_last - 1)

/-- The call `std::copy_backward(buf + first, buf + last, buf + d_last)` inside one buffer. -/
def std_copy_backward {α : Type} (buf : ArrayPtr α) (first last d_last : Nat) :
    Result (ArrayPtr α) :=
  if last < first then .error .undefined_behaviour
  else copy_backward_loop (last - first) buf last d_last

/-- Loop of `std::move_backward` inside one buffer: `n` times
`*(--d_last) = std::move(*(--last))`. -/
def move_backward_loop {α : Type} : Nat → ArrayPtr α → Nat → Nat → Result (ArrayPtr α)
  | 0, buf, _, _ => .ok buf
  | n + 1, buf, last, d_last =>
    match ArrayPtr.read buf (last - 1) with
    | .error e => .error e
    | .ok x =>
      match ArrayPtr.write buf (d_last - 1) x with
      | .error e => .error e
      | .ok buf1 =>
        match ArrayPtr.write buf1 (last - 1) none with
        | .error e => .error e
        | .ok buf2 => move_backward_loop n buf2 (last - 1) (d_last - 1)

/-- The call `std::move_backward(buf + first, buf + last, buf + d_last)` inside one buffer. -/
def std_move_backward {α : Type} (buf : ArrayPtr α) (first last d_last : Nat) :
    Result (ArrayPtr α) :=
  if last < first then .error .undefined_behaviour
  else move_backward_loop (last - first) buf last d_last

/-- Loop of `std::fill` and of `std::generate`: `n` times `*first++ = value`. -/
def fill_loop {α : Type} : Nat → ArrayPtr α → Nat → α → Result (ArrayPtr α)
  | 0, buf, _, _ => .ok buf
  | n + 1, buf, first, value =>
    match ArrayPtr.write buf first (some value) with
    | .error e => .error e
    | .ok buf1 => fill_loop n buf1 (first + 1) value

/-- The call `std::fill(buf + first, buf + last, value)`. -/
def std_fill {α : Type} (buf : ArrayPtr α) (first last : Nat) (value : α) : Result (ArrayPtr α) :=
  if last < first then .error .undefined_behaviour
  else fill_loop (last - first) buf first value

/-- The call `std::generate(buf + first, buf + last, gen)`. -/
def std_generate {α : Type} (buf : ArrayPtr α) (first last : Nat) (gen : Unit → α) :
    Result (ArrayPtr α) :=
  if last < first then .error .undefined_behaviour
  else fill_loop (last - first) buf first (gen ())

/-- Loop of `std::copy` from an `initializer_list` (whose elements are all values). -/
def copy_init_loop {α : Type} : List α → ArrayPtr α → Nat → Result (ArrayPtr α)
  | [], dst, _ => .ok dst
  | x :: rest, dst, d_first =>
    match ArrayPtr.write dst d_first (some x) with
    | .error e => .error e
    | .ok dst1 => copy_init_loop rest dst1 (d_first + 1)

/-- Loop of `std::equal` over two ranges of the same length `n`: stops at the first pair of
elements that differ. -/
def equal_loop {α : Type} [DecidableEq α] : Nat → ArrayPtr α → Nat → ArrayPtr α → Nat → Result Bool
  | 0, _, _, _, _ => .ok true
  | n + 1, a, first1, b, first2 =>
    match ArrayPtr.read_value a first1 with
    | .error e => .error e
    | .ok x =>
      match ArrayPtr.read_value b first2 with
      | .error e => .error e
      | .ok y => if x = y then equal_loop n a (first1 + 1) b (first2 + 1) else .ok false

/-- The call `std::equal(a + first1, a + last1, b + first2, b + last2)` on random access
iterators: ranges of different lengths are unequal without any element being read. -/
def std_equal {α : Type} [DecidableEq α] (a : ArrayPtr α) (first1 last1 : Nat) (b : ArrayPtr α)
    (first2 last2 : Nat) : Result Bool :=
  if last1 < first1 ∨ last2 < first2 then .error .undefined_behaviour
  else if last1 - first1 ≠ last2 - first2 then .ok false
  else equal_loop (last1 - first1) a first1 b first2

/-- Loop of `std::lexicographical_compare` over ranges with `n1` and `n2` elements left:
`for (; first1 != last1 && first2 != last2; ++first1, ++first2)` returns `true` when
`*first1 < *first2`, `false` when `*first2 < *first1`; after the loop the result is
`first1 == last1 && first2 != last2`. -/
def lexicographical_compare_loop {α : Type} [LT α] [DecidableRel (fun x y : α => x < y)] :
    Nat → Nat → ArrayPtr α → Nat → ArrayPtr α → Nat → Result Bool
  | 0, n2, _, _, _, _ => .ok (decide (n2 ≠ 0))
  | _ + 1, 0, _, _, _, _ => .ok false
  | n1 + 1, n2 + 1, a, first1, b, first2 =>
    match ArrayPtr.read_value a first1 with
    | .error e => .error e
    | .ok x =>
      match ArrayPtr.read_value b first2 with
      | .error e => .error e
      | .ok y =>
        if x < y then .ok true
        else if y < x then .ok false
        else lexicographical_compare_loop n1 n2 a (first1 + 1) b (first2 + 1)

/-- The call `std::lexicographical_compare(a + first1, a + last1, b + first2, b + last2)`. -/
def std_lexicographical_compare {α : Type} [LT α] [DecidableRel (fun x y : α => x < y)]
    (a : ArrayPtr α) (first1 last1 : Nat) (b : ArrayPtr α) (first2 last2 : Nat) : Result Bool :=
  if last1 < first1 ∨ last2 < first2 then .error .undefined_behaviour
  else lexicographical_compare_loop (last1 - first1) (last2 - first2) a first1 b first2

/-! ## Machine integers -/

/-- The largest value of `int`. -/
def INT_MAX : Int := 2 ^ 31 - 1

/-- The smallest value of `int`. -/
def INT_MIN : Int := -(2 ^ 31)

/-- The largest value of `size_t`. -/
def SIZE_MAX : Nat := 2 ^ 64 - 1

/-- The conversion `static_cast<int>(n)` of a `size_t`: the value modulo `2^32`, read as a
two's complement number. -/
def static_cast_int (n : Nat) : Int :=
  if n % 2 ^ 32 < 2 ^ 31 then ((n % 2 ^ 32 : Nat) : Int) else ((n % 2 ^ 32 : Nat) : Int) - 2 ^ 32

/-- The expression `std::max(1, static_cast<int>(size_) * 2)` of both `PushBack` overloads,
converted to `size_t`.  The product is computed in `int`; its overflow is undefined
behaviour. -/
def push_back_new_size (size_ : Nat) : Result Nat :=
  let doubled : Int := static_cast_int size_ * 2
  if doubled < INT_MIN ∨ INT_MAX < doubled then .error .undefined_behaviour
  else .ok (max 1 doubled).toNat

/-! ## Reference parameters -/

/-- What a parameter of type `const Type&` or `Type&&` is bound to when a member function of
a container is called: an object outside the storage of the container, which holds the value
`x`, or the object in slot `i` of the storage that the container owns at the call, as in
`v.Insert(pos, v[i])`. -/
inductive ValueRef (α : Type) where
  /-- An object that is no part of the storage of the container -/
  | object (x : α)
  /-- The object in slot `i` of the storage of the container -/
  | element (i : Nat)
  deriving DecidableEq, Repr

/-- Reading through the reference; `holder` is the present state of the storage that the
container owned when the member function was called. -/
def ValueRef.read {α : Type} (value : ValueRef α) (holder : ArrayPtr α) : Result (Option α) :=
  match value with
  | .object x => .ok (some x)
  | .element i => ArrayPtr.read holder i

/-- The storage `holder` once the referenced object has been moved from: a slot of `holder`
that was moved from is left unspecified. -/
def ValueRef.moved_from {α : Type} (value : ValueRef α) (holder : ArrayPtr α) :
    Result (ArrayPtr α) :=
  match value with
  | .object _ => .ok holder
  | .element i => ArrayPtr.write holder i none

/-- The assignment `dst[i] = value` through a `const Type&`: the referenced object is read
when the assignment is executed. -/
def ValueRef.copy_assign {α : Type} (value : ValueRef α) (holder dst : ArrayPtr α) (i : Nat) :
    Result (ArrayPtr α) :=
  match value.read holder with
  | .error e => .error e
  | .ok x => ArrayPtr.write dst i x

/-- The assignment `buf[i] = std::move(value)` when `buf` is the storage that the reference
may point into. -/
def ValueRef.move_assign_within {α : Type} (value : ValueRef α) (buf : ArrayPtr α) (i : Nat) :
    Result (ArrayPtr α) :=
  match value.read buf with
  | .error e => .error e
  | .ok x =>
    match ArrayPtr.write buf i x with
    | .error e => .error e
    | .ok buf1 => value.moved_from buf1

/-- The assignment `dst[i] = std::move(value)` into another buffer than the storage `holder`
that the reference may point into.  Returns `holder` and `dst`. -/
def ValueRef.move_assign {α : Type} (value : ValueRef α) (holder dst : ArrayPtr α) (i : Nat) :
    Result (ArrayPtr α × ArrayPtr α) :=
  match value.read holder with
  | .error e => .error e
  | .ok x =>
    match ArrayPtr.write dst i x with
    | .error e => .error e
    | .ok dst1 =>
      match value.moved_from holder with
      | .error e => .error e
      | .ok holder1 => .ok (holder1, dst1)

/-! ## The container -/

/-- The class `ReserveProxyObj`: carries the requested capacity. -/
structure ReserveProxyObj where
  /-- The member `value_` -/
  value_ : Nat := 0
  deriving DecidableEq, Repr

/-- The member function `ReserveProxyObj::Get`. -/
def ReserveProxyObj.Get (r : ReserveProxyObj) : Nat := r.value_

/-- The free function `Reserve(capacity_to_reserve)`. -/
def Reserve (capacity_to_reserve : Nat) : ReserveProxyObj := ⟨capacity_to_reserve⟩

/-- The data members of `SimpleVector<Type>`. -/
structure SimpleVector (α : Type) where
  /-- The member `items_`: the owning buffer -/
  items_ : ArrayPtr α := []
  /-- The member `size_` -/
  size_ : Nat := 0
  /-- The member `capacity_`, what `GetCapacity` reports -/
  capacity_ : Nat := 0
  deriving DecidableEq, Repr

namespace SimpleVector

variable {α : Type}

/-- The constructor `SimpleVector() noexcept = default`. -/
def ctor_default : SimpleVector α := {}

/-- The constructor `explicit SimpleVector(size_t size)`. -/
def ctor_size [Inhabited α] (size : Nat) : Result (SimpleVector α) :=
  -- items_(size); size_ = size; capacity_ = size; std::fill(begin(), end(), Type())
  match std_fill (ArrayPtr.alloc size) 0 size (default : α) with
  | .error e => .error e
  | .ok items => .ok { items_ := items, size_ := size, capacity_ := size }

/-- The constructor `SimpleVector(ReserveProxyObj to_res)`: it sets the two counters and
leaves `items_` default-constructed. -/
def ctor_reserve (to_res : ReserveProxyObj) : SimpleVector α :=
  { items_ := [], size_ := 0, capacity_ := to_res.Get }

/-- The constructor `SimpleVector(SimpleVector&& other)`; returns the new object and the
state in which `other` is left. -/
def ctor_move (other : SimpleVector α) : SimpleVector α × SimpleVector α :=
  -- items_ = std::move(other.items_)
  let moved := ArrayPtr.move_assign [] other.items_
  -- std::exchange(size_, other.size_); std::exchange(capacity_, other.capacity_);
  -- other.size_ = 0; other.capacity_ = 0
  ({ items_ := moved.1, size_ := other.size_, capacity_ := other.capacity_ },
   { items_ := moved.2, size_ := 0, capacity_ := 0 })

/-- The constructor `SimpleVector(size_t size, const Type& value)`. -/
def ctor_size_value (size : Nat) (value : α) : Result (SimpleVector α) :=
  match std_fill (ArrayPtr.alloc size) 0 size value with
  | .error e => .error e
  | .ok items => .ok { items_ := items, size_ := size, capacity_ := size }

/-- The constructor `SimpleVector(std::initializer_list<Type> init)`. -/
def ctor_init (init : List α) : Result (SimpleVector α) :=
  match copy_init_loop init (ArrayPtr.alloc init.length) 0 with
  | .error e => .error e
  | .ok items => .ok { items_ := items, size_ := init.length, capacity_ := init.length }

/-- The member function `GetSize`. -/
def GetSize (v : SimpleVector α) : Nat := v.size_

/-- The member function `GetCapacity`. -/
def GetCapacity (v : SimpleVector α) : Nat := v.capacity_

/-- The member function `IsEmpty`. -/
def IsEmpty (v : SimpleVector α) : Bool := v.size_ == 0

/-- The copy constructor `SimpleVector(const SimpleVector& other)`:
`items_(other.GetSize()), size_(other.GetSize()), capacity_(other.GetCapacity())`, then
`std::copy(other.begin(), other.end(), this->begin())`. -/
def ctor_copy (other : SimpleVector α) : Result (SimpleVector α) :=
  match std_copy other.items_ 0 other.size_ (ArrayPtr.alloc other.GetSize) 0 with
  | .error e => .error e
  | .ok items => .ok { items_ := items, size_ := other.GetSize, capacity_ := other.GetCapacity }

/-- The member function `Reserve(size_t new_capacity)`. -/
def Reserve (v : SimpleVector α) (new_capacity : Nat) : Result (SimpleVector α) :=
  if new_capacity > v.capacity_ then
    match std_copy v.items_ 0 v.size_ (ArrayPtr.alloc new_capacity) 0 with
    | .error e => .error e
    | .ok new_vec =>
      let swapped := ArrayPtr.swap v.items_ new_vec
      .ok { items_ := swapped.1, size_ := v.size_, capacity_ := new_capacity }
  else .ok v

/-- The member function `swap(SimpleVector& other)`; returns the new states of `*this` and of
`other`. -/
def swap (v other : SimpleVector α) : SimpleVector α × SimpleVector α :=
  let swapped := ArrayPtr.swap v.items_ other.items_
  ({ items_ := swapped.1, size_ := other.size_, capacity_ := other.capacity_ },
   { items_ := swapped.2, size_ := v.size_, capacity_ := v.capacity_ })

/-- The subscript `operator[](size_t index)`, both forms: `items_[index]`, unchecked. -/
def subscript (v : SimpleVector α) (index : Nat) : Result (Option α) :=
  ArrayPtr.read v.items_ index

/-- The mutable member function `At(size_t index)`; returns the designated slot and the
state of the container after the call. -/
def At (v : SimpleVector α) (index : Nat) : Result (Option α × SimpleVector α) :=
  if index ≥ v.size_ then .error .out_of_range
  else
    match ArrayPtr.read v.items_ index with
    | .error e => .error e
    | .ok s => .ok (s, v)

/-- The member function `At(size_t index) const`. -/
def At_const (v : SimpleVector α) (index : Nat) : Result (Option α) :=
  if index ≥ v.size_ then .error .out_of_range
  else ArrayPtr.read v.items_ index

/-- The member function `Clear`. -/
def Clear (v : SimpleVector α) : SimpleVector α := { v with size_ := 0 }

/-- The member function `Resize(size_t new_size)`. -/
def Resize [Inhabited α] (v : SimpleVector α) (new_size : Nat) : Result (SimpleVector α) :=
  if new_size > v.capacity_ then
    -- ArrayPtr<Type> new_vec(new_size); std::move(items_.Get(), items_.Get() + size_, new_vec.Get())
    match std_move v.items_ 0 v.size_ (ArrayPtr.alloc new_size) 0 with
    | .error e => .error e
    | .ok (old_items, new_vec) =>
      -- items_.swap(new_vec)
      let swapped := ArrayPtr.swap old_items new_vec
      -- std::generate(items_.Get() + size_, items_.Get() + size_ + (new_size - size_), ...)
      match std_generate swapped.1 v.size_ (v.size_ + (new_size - v.size_))
          (fun _ => (default : α)) with
      | .error e => .error e
      | .ok items =>
        .ok { items_ := items, size_ := new_size, capacity_ := max new_size (v.capacity_ * 2) }
  else if new_size > v.size_ ∧ new_size < v.capacity_ then
    match std_generate v.items_ v.size_ (v.size_ + (new_size - v.size_))
        (fun _ => (default : α)) with
    | .error e => .error e
    | .ok items => .ok { v with items_ := items, size_ := new_size }
  else if new_size < v.size_ then .ok { v with size_ := new_size }
  else .ok v

/-- The copy overload `PushBack(const Type& item)`. -/
def PushBack (v : SimpleVector α) (item : α) : Result (SimpleVector α) :=
  if v.size_ < v.capacity_ then
    -- items_[size_++] = item
    match ArrayPtr.write v.items_ v.size_ (some item) with
    | .error e => .error e
    | .ok items => .ok { v with items_ := items, size_ := v.size_ + 1 }
  else
    match push_back_new_size v.size_ with
    | .error e => .error e
    | .ok new_size =>
      -- ArrayPtr<Type> new_vec(new_size); std::copy(items_.Get(), items_.Get() + size_, new_vec.Get())
      match std_copy v.items_ 0 v.size_ (ArrayPtr.alloc new_size) 0 with
      | .error e => .error e
      | .ok new_vec =>
        -- items_.swap(new_vec): from here on new_vec is the old storage
        let swapped := ArrayPtr.swap v.items_ new_vec
        -- new_vec[size_] = item
        match ArrayPtr.write swapped.2 v.size_ (some item) with
        | .error e => .error e
        | .ok _ => .ok { items_ := swapped.1, size_ := v.size_ + 1, capacity_ := new_size }

/-- The move overload `PushBack(Type&& item)`. -/
def PushBack_move (v : SimpleVector α) (item : α) : Result (SimpleVector α) :=
  if v.size_ < v.capacity_ then
    -- items_[size_++] = std::move(item)
    match ArrayPtr.write v.items_ v.size_ (some item) with
    | .error e => .error e
    | .ok items => .ok { v with items_ := items, size_ := v.size_ + 1 }
  else
    match push_back_new_size v.size_ with
    | .error e => .error e
    | .ok new_size =>
      -- ArrayPtr<Type> new_vec(new_size); std::move(items_.Get(), items_.Get() + size_, new_vec.Get())
      match std_move v.items_ 0 v.size_ (ArrayPtr.alloc new_size) 0 with
      | .error e => .error e
      | .ok (old_items, new_vec) =>
        -- new_vec[size_] = std::move(item)
        match ArrayPtr.write new_vec v.size_ (some item) with
        | .error e => .error e
        | .ok new_vec1 =>
          -- items_.swap(new_vec)
          let swapped := ArrayPtr.swap old_items new_vec1
          .ok { items_ := swapped.1, size_ := v.size_ + 1, capacity_ := new_size }

/-- The member function `PopBack`. -/
def PopBack (v : SimpleVector α) : SimpleVector α :=
  if !v.IsEmpty then { v with size_ := v.size_ - 1 } else v

/-- The copy overload `Insert(ConstIterator pos, const Type& value)`; `pos` is the offset
`pos - begin()`, and `value` is a reference: it is read when the assignment that stores it is
executed.  Returns the container and the offset of the returned iterator in it. -/
def Insert (v : SimpleVector α) (pos : Nat) (value : ValueRef α) :
    Result (SimpleVector α × Nat) :=
  let index := pos
  if v.size_ < v.capacity_ then
    if pos = v.size_ then
      -- items_[size_] = value
      match value.copy_assign v.items_ v.items_ v.size_ with
      | .error e => .error e
      | .ok items => .ok ({ v with items_ := items, size_ := v.size_ + 1 }, index)
    else
      -- std::copy_backward(items_.Get() + index, items_.Get() + size_, items_.Get() + size_ + 1)
      match std_copy_backward v.items_ index v.size_ (v.size_ + 1) with
      | .error e => .error e
      | .ok shifted =>
        -- items_[index] = value
        match value.copy_assign shifted shifted index with
        | .error e => .error e
        | .ok items => .ok ({ v with items_ := items, size_ := v.size_ + 1 }, index)
  else
    let new_capacity := if v.capacity_ = 0 then 1 else 2 * v.capacity_
    -- std::copy(items_.Get(), items_.Get() + index, new_vec.Get())
    match std_copy v.items_ 0 index (ArrayPtr.alloc new_capacity) 0 with
    | .error e => .error e
    | .ok new_vec1 =>
      -- new_vec[index] = value
      match value.copy_assign v.items_ new_vec1 index with
      | .error e => .error e
      | .ok new_vec2 =>
        -- std::copy(items_.Get() + index, items_.Get() + size_, new_vec.Get() + index + 1)
        match std_copy v.items_ index v.size_ new_vec2 (index + 1) with
        | .error e => .error e
        | .ok new_vec3 =>
          let swapped := ArrayPtr.swap v.items_ new_vec3
          .ok ({ items_ := swapped.1, size_ := v.size_ + 1, capacity_ := new_capacity }, index)

/-- The move overload `Insert(Iterator pos, Type&& value)`; `pos` is the offset
`pos - begin()`, and `value` is a reference: it is read, and the referenced object moved from,
when the assignment that stores it is executed.  Returns the container and the offset of the
returned iterator in it. -/
def Insert_move (v : SimpleVector α) (pos : Nat) (value : ValueRef α) :
    Result (SimpleVector α × Nat) :=
  -- assert(pos >= begin() && pos <= end())
  if ¬ pos ≤ v.size_ then .error .assertion
  else
    let index := pos
    if v.size_ < v.capacity_ then
      if pos = v.size_ then
        -- items_[size_] = std::move(value)
        match value.move_assign_within v.items_ v.size_ with
        | .error e => .error e
        | .ok items => .ok ({ v with items_ := items, size_ := v.size_ + 1 }, index)
      else
        -- std::move_backward(items_.Get() + index, items_.Get() + size_, items_.Get() + size_ + 1)
        match std_move_backward v.items_ index v.size_ (v.size_ + 1) with
        | .error e => .error e
        | .ok shifted =>
          -- items_[index] = std::move(value)
          match value.move_assign_within shifted index with
          | .error e => .error e
          | .ok items => .ok ({ v with items_ := items, size_ := v.size_ + 1 }, index)
    else
      let new_capacity := if v.capacity_ = 0 then 1 else 2 * v.capacity_
      -- std::move(items_.Get(), items_.Get() + index, new_vec.Get())
      match std_move v.items_ 0 index (ArrayPtr.alloc new_capacity) 0 with
      | .error e => .error e
      | .ok (old1, new_vec1) =>
        -- new_vec[index] = std::move(value)
        match value.move_assign old1 new_vec1 index with
        | .error e => .error e
        | .ok (old2, new_vec2) =>
          -- std::move(items_.Get() + index, items_.Get() + size_, new_vec.Get() + index + 1)
          match std_move old2 index v.size_ new_vec2 (index + 1) with
          | .error e => .error e
          | .ok (old3, new_vec3) =>
            let swapped := ArrayPtr.swap old3 new_vec3
            .ok ({ items_ := swapped.1, size_ := v.size_ + 1, capacity_ := new_capacity }, index)

/-- The member function `Erase(ConstIterator pos)`; `pos` is the offset `pos - begin()`.
Returns the container and the offset of the returned iterator `Iterator(pos)`. -/
def Erase (v : SimpleVector α) (pos : Nat) : Result (SimpleVector α × Nat) :=
  -- assert(pos >= begin() && pos < end())
  if ¬ pos < v.size_ then .error .assertion
  else
    let index := pos
    -- std::move((it + 1), end(), it)
    match std_move_within v.items_ (index + 1) v.size_ index with
    | .error e => .error e
    | .ok items => .ok ({ v with items_ := items, size_ := v.size_ - 1 }, pos)

/-- The calls `PushBack(x)` (copy overload) for each `x` of `xs`, in order. -/
def PushBack_each (v : SimpleVector α) : List α → Result (SimpleVector α)
  | [] => .ok v
  | x :: rest =>
    match v.PushBack x with
    | .error e => .error e
    | .ok v1 => PushBack_each v1 rest

/-- The calls `PushBack(std::move(x))` (move overload) for each `x` of `xs`, in order. -/
def PushBack_move_each (v : SimpleVector α) : List α → Result (SimpleVector α)
  | [] => .ok v
  | x :: rest =>
    match v.PushBack_move x with
    | .error e => .error e
    | .ok v1 => PushBack_move_each v1 rest

end SimpleVector

/-- The free `operator==`. -/
def op_eq {α : Type} [DecidableEq α] (lhs rhs : SimpleVector α) : Result Bool :=
  if lhs.GetSize = rhs.GetSize then
    std_equal lhs.items_ 0 lhs.size_ rhs.items_ 0 rhs.size_
  else .ok false

/-- The free `operator!=`. -/
def op_ne {α : Type} [DecidableEq α] (lhs rhs : SimpleVector α) : Result Bool :=
  match op_eq lhs rhs with
  | .error e => .error e
  | .ok b => .ok (!b)

/-- The free `operator<`. -/
def op_lt {α : Type} [LT α] [DecidableRel (fun x y : α => x < y)] (lhs rhs : SimpleVector α) :
    Result Bool :=
  std_lexicographical_compare lhs.items_ 0 lhs.size_ rhs.items_ 0 rhs.size_

/-- The free `operator<=`: `(lhs == rhs) || (lhs < rhs)`; the right operand of `||` is
evaluated only when the left one is false. -/
def op_le {α : Type} [DecidableEq α] [LT α] [DecidableRel (fun x y : α => x < y)]
    (lhs rhs : SimpleVector α) : Result Bool :=
  match op_eq lhs rhs with
  | .error e => .error e
  | .ok true => .ok true
  | .ok false => op_lt lhs rhs

/-- The free `operator>`: `rhs < lhs`. -/
def op_gt {α : Type} [LT α] [DecidableRel (fun x y : α => x < y)] (lhs rhs : SimpleVector α) :
    Result Bool :=
  op_lt rhs lhs

/-- The free `operator>=`: `(lhs == rhs) || (rhs < lhs)`. -/
def op_ge {α : Type} [DecidableEq α] [LT α] [DecidableRel (fun x y : α => x < y)]
    (lhs rhs : SimpleVector α) : Result Bool :=
  match op_eq lhs rhs with
  | .error e => .error e
  | .ok true => .ok true
  | .ok false => op_lt rhs lhs

namespace SimpleVector

variable {α : Type}

/-- The move assignment `operator=(SimpleVector&& rhs)`: the guard `*this != rhs` compares the
two containers with the free `operator!=`.  Returns the new states of `*this` and of `rhs`. -/
def assign_move [DecidableEq α] (v rhs : SimpleVector α) :
    Result (SimpleVector α × SimpleVector α) :=
  match op_ne v rhs with
  | .error e => .error e
  | .ok true =>
    -- SimpleVector tmp_list(std::move(rhs)); swap(tmp_list)
    let moved := ctor_move rhs
    .ok ((v.swap moved.1).1, moved.2)
  | .ok false => .ok (v, rhs)

/-- The copy assignment `operator=(const SimpleVector& rhs)`; `this_is_rhs` is the outcome of
the comparison of addresses `this == &rhs`.  Returns the new state of `*this`; `rhs` is
`const`. -/
def assign_copy (v rhs : SimpleVector α) (this_is_rhs : Bool) : Result (SimpleVector α) :=
  if !this_is_rhs then
    -- SimpleVector tmp_list(rhs); swap(tmp_list)
    match ctor_copy rhs with
    | .error e => .error e
    | .ok tmp_list => .ok (v.swap tmp_list).1
  else .ok v

end SimpleVector

/-- The class invariant of spec section 3, with the bound that keeps every write inside the
storage: `size_ ≤ capacity_`, the buffer has no more slots than `capacity_` reports, and the
first `size_` slots are slots of the buffer that hold values. -/
def Valid {α : Type} (v : SimpleVector α) : Prop :=
  v.size_ ≤ v.capacity_ ∧ v.items_.length ≤ v.capacity_ ∧
    ∀ i, i < v.size_ → ∃ x, v.items_[i]? = some (some x)

/-- The container has the element sequence `xs`: its size is the length of `xs` and, for
every `i` below it, slot `i` of the storage holds the value `xs[i]`. -/
def HasElements {α : Type} (v : SimpleVector α) (xs : List α) : Prop :=
  v.size_ = xs.length ∧ ∀ i, i < xs.length → v.items_[i]? = (xs[i]?).map some

/-- The container states that a program can reach: built by a constructor, then changed by
calls of the public mutators that return (a call that has undefined behaviour reaches no
state).  The argument of the copy overload of `Insert` is an object outside the storage or an
element of the container; the argument of the move overload is an object outside the
storage (moving an element of the container into `Insert` leaves that element without a
specified value). -/
inductive Reachable {α : Type} [DecidableEq α] [Inhabited α] : SimpleVector α → Prop where
  | ctor_default : Reachable SimpleVector.ctor_default
  | ctor_size (size : Nat) (r : SimpleVector α) :
      SimpleVector.ctor_size size = .ok r → Reachable r
  | ctor_size_value (size : Nat) (value : α) (r : SimpleVector α) :
      SimpleVector.ctor_size_value size value = .ok r → Reachable r
  | ctor_reserve (to_res : ReserveProxyObj) : Reachable (SimpleVector.ctor_reserve to_res)
  | ctor_init (init : List α) (r : SimpleVector α) :
      SimpleVector.ctor_init init = .ok r → Reachable r
  | ctor_copy (other r : SimpleVector α) :
      Reachable other → SimpleVector.ctor_copy other = .ok r → Reachable r
  | ctor_move (other : SimpleVector α) :
      Reachable other → Reachable (SimpleVector.ctor_move other).1
  | ctor_move_source (other : SimpleVector α) :
      Reachable other → Reachable (SimpleVector.ctor_move other).2
  | Reserve (v r : SimpleVector α) (new_capacity : Nat) :
      Reachable v → v.Reserve new_capacity = .ok r → Reachable r
  | Clear (v : SimpleVector α) : Reachable v → Reachable v.Clear
  | Resize (v r : SimpleVector α) (new_size : Nat) :
      Reachable v → v.Resize new_size = .ok r → Reachable r
  | PushBack (v r : SimpleVector α) (item : α) :
      Reachable v → v.PushBack item = .ok r → Reachable r
  | PushBack_move (v r : SimpleVector α) (item : α) :
      Reachable v → v.PushBack_move item = .ok r → Reachable r
  | PopBack (v : SimpleVector α) : Reachable v → Reachable v.PopBack
  | Insert (v r : SimpleVector α) (pos it : Nat) (value : ValueRef α) :
      Reachable v → pos ≤ v.size_ → (∀ i, value = .element i → i < v.size_) →
      v.Insert pos value = .ok (r, it) → Reachable r
  | Insert_move (v r : SimpleVector α) (pos it : Nat) (value : α) :
      Reachable v → pos ≤ v.size_ → v.Insert_move pos (.object value) = .ok (r, it) →
      Reachable r
  | Erase (v r : SimpleVector α) (pos it : Nat) :
      Reachable v → pos < v.size_ → v.Erase pos = .ok (r, it) → Reachable r
  | swap (v other : SimpleVector α) :
      Reachable v → Reachable other → Reachable (v.swap other).1
  | swap_other (v other : SimpleVector α) :
      Reachable v → Reachable other → Reachable (v.swap other).2
  | assign_copy (v rhs r : SimpleVector α) (this_is_rhs : Bool) :
      Reachable v → Reachable rhs → v.assign_copy rhs this_is_rhs = .ok r → Reachable r
  | assign_move (v rhs : SimpleVector α) (r : SimpleVector α × SimpleVector α) :
      Reachable v → Reachable rhs → v.assign_move rhs = .ok r → Reachable r.1
  | assign_move_source (v rhs : SimpleVector α) (r : SimpleVector α × SimpleVector α) :
      Reachable v → Reachable rhs → v.assign_move rhs = .ok r → Reachable r.2

/-! ## Lemmas on the buffer and on the standard algorithms -/

section Lemmas

variable {α : Type}

/-! ### Reads and writes inside the storage -/

theorem ArrayPtr.read_eq_ok {p : ArrayPtr α} {i : Nat} (h : i < p.length) :
    ArrayPtr.read p i = .ok p[i] := by
  simp [ArrayPtr.read, List.getElem?_eq_getElem h]

theorem ArrayPtr.write_eq_ok {p : ArrayPtr α} {i : Nat} (h : i < p.length) (s : Option α) :
    ArrayPtr.write p i s = .ok (p.set i s) := by
  simp [ArrayPtr.write, h]

/-! ### Reference parameters -/

theorem ValueRef.copy_assign_object (x : α) (holder dst : ArrayPtr α) (i : Nat) :
    (ValueRef.object x).copy_assign holder dst i = ArrayPtr.write dst i (some x) := rfl

theorem ValueRef.move_assign_within_object (x : α) (buf : ArrayPtr α) (i : Nat) :
    (ValueRef.object x).move_assign_within buf i = ArrayPtr.write buf i (some x) := by
  simp only [ValueRef.move_assign_within, ValueRef.read, ValueRef.moved_from]
  cases ArrayPtr.write buf i (some x) <;> rfl

theorem ValueRef.move_assign_object (x : α) (holder dst : ArrayPtr α) (i : Nat) :
    (ValueRef.object x).move_assign holder dst i =
      (ArrayPtr.write dst i (some x)).map (fun d => (holder, d)) := by
  simp only [ValueRef.move_assign, ValueRef.read, ValueRef.moved_from]
  cases ArrayPtr.write dst i (some x) <;> rfl

theorem ValueRef.copy_assign_ok (value : ValueRef α) (holder dst : ArrayPtr α) (i : Nat)
    (hi : i < dst.length) (hval : ∀ j, value = .element j → j < holder.length) :
    ∃ s, value.copy_assign holder dst i = .ok (dst.set i s) ∧
      (∀ x, value = .object x → s = some x) ∧
      (∀ j, value = .element j → holder[j]? = some s) := by
  cases value with
  | object x =>
    exact ⟨some x, by simp [ValueRef.copy_assign, ValueRef.read, ArrayPtr.write_eq_ok hi],
      fun y hy => by cases hy; rfl, fun j hj => by cases hj⟩
  | element j =>
    have hj : j < holder.length := hval j rfl
    refine ⟨holder[j], ?_, (fun y hy => by cases hy), fun k hk => ?_⟩
    · simp [ValueRef.copy_assign, ValueRef.read, ArrayPtr.read_eq_ok hj, ArrayPtr.write_eq_ok hi]
    · cases hk
      exact List.getElem?_eq_getElem hj

theorem ValueRef.copy_assign_ok_lt {value : ValueRef α} {holder dst r : ArrayPtr α} {i : Nat}
    (h : value.copy_assign holder dst i = .ok r) : i < dst.length := by
  unfold ValueRef.copy_assign at h
  split at h
  · cases h
  · unfold ArrayPtr.write at h
    split_ifs at h with hi
    exact hi

theorem ValueRef.move_assign_within_ok_lt {value : ValueRef α} {buf r : ArrayPtr α} {i : Nat}
    (h : value.move_assign_within buf i = .ok r) : i < buf.length := by
  unfold ValueRef.move_assign_within at h
  split at h
  · cases h
  · split at h
    · cases h
    · rename_i hw
      unfold ArrayPtr.write at hw
      split_ifs at hw with hi
      exact hi

/-! ### The loops, when every access is inside the storage -/

theorem copy_loop_spec (src : ArrayPtr α) : ∀ (n first : Nat) (dst : ArrayPtr α) (d : Nat),
    first + n ≤ src.length → d + n ≤ dst.length →
    ∃ r, copy_loop src n first dst d = .ok r ∧ r.length = dst.length ∧
      ∀ i, r[i]? = if d ≤ i ∧ i < d + n then src[first + (i - d)]? else dst[i]? := by
  intro n
  induction n with
  | zero =>
    intro first dst d _ _
    refine ⟨dst, rfl, rfl, fun i => ?_⟩
    rw [if_neg (by omega)]
  | succ n ih =>
    intro first dst d hs hd
    have h1 : first < src.length := by omega
    have h2 : d < dst.length := by omega
    obtain ⟨r, hr, hlen, hget⟩ :=
      ih (first + 1) (dst.set d src[first]) (d + 1) (by omega) (by simp; omega)
    refine ⟨r, ?_, by simpa using hlen, fun i => ?_⟩
    · simp [copy_loop, ArrayPtr.read_eq_ok h1, ArrayPtr.write_eq_ok h2, hr]
    · rw [hget i, List.getElem?_set]
      by_cases hi : d = i
      · subst hi
        rw [if_neg (by omega), if_pos rfl, if_pos h2, if_pos (by omega)]
        simp [List.getElem?_eq_getElem h1]
      · by_cases hlo : d + 1 ≤ i ∧ i < d + 1 + n
        · have hlo2 : d ≤ i ∧ i < d + (n + 1) := by omega
          have he : first + 1 + (i - (d + 1)) = first + (i - d) := by omega
          rw [if_pos hlo, if_pos hlo2, he]
        · have hlo2 : ¬ (d ≤ i ∧ i < d + (n + 1)) := by omega
          rw [if_neg hlo, if_neg hlo2, if_neg hi]

theorem move_within_loop_spec : ∀ (n : Nat) (buf : ArrayPtr α) (d : Nat),
    d + 1 + n ≤ buf.length →
    ∃ r, move_within_loop n buf (d + 1) d = .ok r ∧ r.length = buf.length ∧
      ∀ i, r[i]? = if d ≤ i ∧ i < d + n then buf[i + 1]?
        else if i = d + n ∧ 0 < n then some none else buf[i]? := by
  intro n
  induction n with
  | zero =>
    intro buf d _
    refine ⟨buf, rfl, rfl, fun i => ?_⟩
    rw [if_neg (by omega), if_neg (by omega)]
  | succ n ih =>
    intro buf d hb
    have h1 : d + 1 < buf.length := by omega
    have h2 : d < buf.length := by omega
    obtain ⟨r, hr, hlen, hget⟩ :=
      ih ((buf.set d buf[d + 1]).set (d + 1) none) (d + 1) (by simp; omega)
    refine ⟨r, ?_, by simpa using hlen, fun i => ?_⟩
    · have h3 : d + 1 < (buf.set d buf[d + 1]).length := by simpa using h1
      simp [move_within_loop, ArrayPtr.read_eq_ok h1, ArrayPtr.write_eq_ok h2,
        ArrayPtr.write_eq_ok h3, hr]
    · rw [hget i]
      simp only [List.getElem?_set, List.length_set]
      have hx : buf[d + 1]? = some buf[d + 1] := List.getElem?_eq_getElem h1
      split_ifs <;> first
        | rfl
        | omega
        | (subst_vars; simp_all)

theorem move_loop_spec : ∀ (n : Nat) (src : ArrayPtr α) (first : Nat) (dst : ArrayPtr α) (d : Nat),
    first + n ≤ src.length → d + n ≤ dst.length →
    ∃ s r, move_loop n src first dst d = .ok (s, r) ∧ s.length = src.length ∧
      r.length = dst.length ∧
      (∀ i, r[i]? = if d ≤ i ∧ i < d + n then src[first + (i - d)]? else dst[i]?) ∧
      (∀ i, s[i]? = if first ≤ i ∧ i < first + n then some none else src[i]?) := by
  intro n
  induction n with
  | zero =>
    intro src first dst d _ _
    refine ⟨src, dst, rfl, rfl, rfl, fun i => ?_, fun i => ?_⟩ <;> rw [if_neg (by omega)]
  | succ n ih =>
    intro src first dst d hs hd
    have h1 : first < src.length := by omega
    have h2 : d < dst.length := by omega
    obtain ⟨s, r, hr, hslen, hlen, hget, hsget⟩ :=
      ih (src.set first none) (first + 1) (dst.set d src[first]) (d + 1)
        (by simp; omega) (by simp; omega)
    refine ⟨s, r, ?_, by simpa using hslen, by simpa using hlen, fun i => ?_, fun i => ?_⟩
    · simp [move_loop, ArrayPtr.read_eq_ok h1, ArrayPtr.write_eq_ok h2,
        ArrayPtr.write_eq_ok h1, hr]
    · rw [hget i]
      simp only [List.getElem?_set, List.length_set]
      have hx : src[first]? = some src[first] := List.getElem?_eq_getElem h1
      split_ifs <;> first
        | rfl
        | omega
        | (congr 1; omega)
        | (subst_vars; simp_all)
    · rw [hsget i]
      simp only [List.getElem?_set, List.length_set]
      split_ifs <;> first
        | rfl
        | omega

theorem copy_backward_loop_spec : ∀ (n : Nat) (buf : ArrayPtr α) (last : Nat),
    n ≤ last → last + 1 ≤ buf.length →
    ∃ r, copy_backward_loop n buf last (last + 1) = .ok r ∧ r.length = buf.length ∧
      ∀ i, r[i]? = if last - n < i ∧ i ≤ last then buf[i - 1]? else buf[i]? := by
  intro n
  induction n with
  | zero =>
    intro buf last _ _
    refine ⟨buf, rfl, rfl, fun i => ?_⟩
    rw [if_neg (by omega)]
  | succ n ih =>
    intro buf last hn hb
    have h1 : last - 1 < buf.length := by omega
    have h2 : last < buf.length := by omega
    obtain ⟨r, hr, hlen, hget⟩ :=
      ih (buf.set last buf[last - 1]) (last - 1) (by omega) (by simp; omega)
    have he : last - 1 + 1 = last := by omega
    rw [he] at hr
    refine ⟨r, ?_, by simpa using hlen, fun i => ?_⟩
    · simp [copy_backward_loop, ArrayPtr.read_eq_ok h1, ArrayPtr.write_eq_ok h2, hr]
    · rw [hget i]
      simp only [List.getElem?_set, List.length_set]
      have hx : buf[last - 1]? = some buf[last - 1] := List.getElem?_eq_getElem h1
      split_ifs <;> first
        | rfl
        | omega
        | (subst_vars; simp_all)

theorem move_backward_loop_spec : ∀ (n : Nat) (buf : ArrayPtr α) (last : Nat),
    n ≤ last → last + 1 ≤ buf.length →
    ∃ r, move_backward_loop n buf last (last + 1) = .ok r ∧ r.length = buf.length ∧
      ∀ i, r[i]? = if last - n < i ∧ i ≤ last then buf[i - 1]?
        else if i = last - n ∧ 0 < n then some none else buf[i]? := by
  intro n
  induction n with
  | zero =>
    intro buf last _ _
    refine ⟨buf, rfl, rfl, fun i => ?_⟩
    rw [if_neg (by omega), if_neg (by omega)]
  | succ n ih =>
    intro buf last hn hb
    have h1 : last - 1 < buf.length := by omega
    have h2 : last < buf.length := by omega
    obtain ⟨r, hr, hlen, hget⟩ :=
      ih ((buf.set last buf[last - 1]).set (last - 1) none) (last - 1) (by omega) (by simp; omega)
    have he : last - 1 + 1 = last := by omega
    rw [he] at hr
    refine ⟨r, ?_, by simpa using hlen, fun i => ?_⟩
    · have h3 : last - 1 < (buf.set last buf[last - 1]).length := by simpa using h1
      simp [move_backward_loop, ArrayPtr.read_eq_ok h1, ArrayPtr.write_eq_ok h2,
        ArrayPtr.write_eq_ok h3, hr]
    · rw [hget i]
      simp only [List.getElem?_set, List.length_set]
      have hx : buf[last - 1]? = some buf[last - 1] := List.getElem?_eq_getElem h1
      split_ifs <;> first
        | rfl
        | omega
        | (subst_vars; simp_all)

theorem fill_loop_spec (value : α) : ∀ (n : Nat) (buf : ArrayPtr α) (first : Nat),
    first + n ≤ buf.length →
    ∃ r, fill_loop n buf first value = .ok r ∧ r.length = buf.length ∧
      ∀ i, r[i]? = if first ≤ i ∧ i < first + n then some (some value) else buf[i]? := by
  intro n
  induction n with
  | zero =>
    intro buf first _
    refine ⟨buf, rfl, rfl, fun i => ?_⟩
    rw [if_neg (by omega)]
  | succ n ih =>
    intro buf first hb
    have h1 : first < buf.length := by omega
    obtain ⟨r, hr, hlen, hget⟩ := ih (buf.set first (some value)) (first + 1) (by simp; omega)
    refine ⟨r, ?_, by simpa using hlen, fun i => ?_⟩
    · simp [fill_loop, ArrayPtr.write_eq_ok h1, hr]
    · rw [hget i]
      simp only [List.getElem?_set, List.length_set]
      split_ifs <;> first
        | rfl
        | omega

theorem copy_init_loop_spec : ∀ (init : List α) (dst : ArrayPtr α) (d : Nat),
    d + init.length ≤ dst.length →
    ∃ r, copy_init_loop init dst d = .ok r ∧ r.length = dst.length ∧
      ∀ i, r[i]? = if d ≤ i ∧ i < d + init.length then (init[i - d]?).map some else dst[i]? := by
  intro init
  induction init with
  | nil =>
    intro dst d _
    refine ⟨dst, rfl, rfl, fun i => ?_⟩
    rw [if_neg (by simp)]
  | cons x rest ih =>
    intro dst d hb
    simp only [List.length_cons] at hb
    have h1 : d < dst.length := by omega
    obtain ⟨r, hr, hlen, hget⟩ := ih (dst.set d (some x)) (d + 1) (by simp; omega)
    refine ⟨r, ?_, by simpa using hlen, fun i => ?_⟩
    · simp [copy_init_loop, ArrayPtr.write_eq_ok h1, hr]
    · rw [hget i]
      simp only [List.getElem?_set, List.length_set, List.length_cons]
      by_cases hi : d = i
      · subst hi
        rw [if_neg (by omega), if_pos rfl, if_pos h1, if_pos (by omega)]
        simp
      · by_cases hlo : d + 1 ≤ i ∧ i < d + 1 + rest.length
        · obtain ⟨k, hk⟩ : ∃ k, i - d = k + 1 := ⟨i - d - 1, by omega⟩
          have hk2 : i - (d + 1) = k := by omega
          rw [if_pos hlo, if_pos (by omega), hk, hk2]
          simp
        · rw [if_neg hlo, if_neg hi, if_neg (by omega)]

/-! ### The calls of the algorithms -/

theorem ArrayPtr.length_alloc (n : Nat) : (ArrayPtr.alloc n : ArrayPtr α).length = n := by
  simp [ArrayPtr.alloc]

theorem std_copy_spec (src : ArrayPtr α) (first last : Nat) (dst : ArrayPtr α) (d : Nat)
    (hfl : first ≤ last) (hs : last ≤ src.length) (hd : d + (last - first) ≤ dst.length) :
    ∃ r, std_copy src first last dst d = .ok r ∧ r.length = dst.length ∧
      ∀ i, r[i]? = if d ≤ i ∧ i < d + (last - first) then src[first + (i - d)]? else dst[i]? := by
  have hnot : ¬ last < first := by omega
  simp only [std_copy, if_neg hnot]
  exact copy_loop_spec src (last - first) first dst d (by omega) hd

theorem std_move_spec (src : ArrayPtr α) (first last : Nat) (dst : ArrayPtr α) (d : Nat)
    (hfl : first ≤ last) (hs : last ≤ src.length) (hd : d + (last - first) ≤ dst.length) :
    ∃ s r, std_move src first last dst d = .ok (s, r) ∧ s.length = src.length ∧
      r.length = dst.length ∧
      (∀ i, r[i]? = if d ≤ i ∧ i < d + (last - first) then src[first + (i - d)]? else dst[i]?) ∧
      (∀ i, s[i]? = if first ≤ i ∧ i < last then some none else src[i]?) := by
  have hnot : ¬ last < first := by omega
  simp only [std_move, if_neg hnot]
  obtain ⟨s, r, h, h1, h2, h3, h4⟩ :=
    move_loop_spec (last - first) src first dst d (by omega) hd
  refine ⟨s, r, h, h1, h2, h3, fun i => ?_⟩
  rw [h4 i]
  have he : first + (last - first) = last := by omega
  rw [he]

theorem std_move_within_spec (buf : ArrayPtr α) (d last : Nat)
    (hfl : d + 1 ≤ last) (hb : last ≤ buf.length) :
    ∃ r, std_move_within buf (d + 1) last d = .ok r ∧ r.length = buf.length ∧
      ∀ i, r[i]? = if d ≤ i ∧ i + 1 < last then buf[i + 1]?
        else if i + 1 = last ∧ d + 1 < last then some none else buf[i]? := by
  have hnot : ¬ last < d + 1 := by omega
  simp only [std_move_within, if_neg hnot]
  obtain ⟨r, h, h1, h2⟩ := move_within_loop_spec (last - (d + 1)) buf d (by omega)
  refine ⟨r, h, h1, fun i => ?_⟩
  rw [h2 i]
  split_ifs <;> first
    | rfl
    | omega

theorem std_copy_backward_spec (buf : ArrayPtr α) (first last : Nat)
    (hfl : first ≤ last) (hb : last + 1 ≤ buf.length) :
    ∃ r, std_copy_backward buf first last (last + 1) = .ok r ∧ r.length = buf.length ∧
      ∀ i, r[i]? = if first < i ∧ i ≤ last then buf[i - 1]? else buf[i]? := by
  have hnot : ¬ last < first := by omega
  simp only [std_copy_backward, if_neg hnot]
  obtain ⟨r, h, h1, h2⟩ := copy_backward_loop_spec (last - first) buf last (by omega) hb
  refine ⟨r, h, h1, fun i => ?_⟩
  rw [h2 i]
  have he : last - (last - first) = first := by omega
  rw [he]

theorem std_move_backward_spec (buf : ArrayPtr α) (first last : Nat)
    (hfl : first ≤ last) (hb : last + 1 ≤ buf.length) :
    ∃ r, std_move_backward buf first last (last + 1) = .ok r ∧ r.length = buf.length ∧
      ∀ i, r[i]? = if first < i ∧ i ≤ last then buf[i - 1]?
        else if i = first ∧ first < last then some none else buf[i]? := by
  have hnot : ¬ last < first := by omega
  simp only [std_move_backward, if_neg hnot]
  obtain ⟨r, h, h1, h2⟩ := move_backward_loop_spec (last - first) buf last (by omega) hb
  refine ⟨r, h, h1, fun i => ?_⟩
  rw [h2 i]
  have he : last - (last - first) = first := by omega
  rw [he]
  split_ifs <;> first
    | rfl
    | omega

theorem std_fill_spec (buf : ArrayPtr α) (first last : Nat) (value : α)
    (hfl : first ≤ last) (hb : last ≤ buf.length) :
    ∃ r, std_fill buf first last value = .ok r ∧ r.length = buf.length ∧
      ∀ i, r[i]? = if first ≤ i ∧ i < last then some (some value) else buf[i]? := by
  have hnot : ¬ last < first := by omega
  simp only [std_fill, if_neg hnot]
  obtain ⟨r, h, h1, h2⟩ := fill_loop_spec value (last - first) buf first (by omega)
  refine ⟨r, h, h1, fun i => ?_⟩
  rw [h2 i]
  have he : first + (last - first) = last := by omega
  rw [he]

theorem std_generate_spec (buf : ArrayPtr α) (first last : Nat) (gen : Unit → α)
    (hfl : first ≤ last) (hb : last ≤ buf.length) :
    ∃ r, std_generate buf first last gen = .ok r ∧ r.length = buf.length ∧
      ∀ i, r[i]? = if first ≤ i ∧ i < last then some (some (gen ())) else buf[i]? :=
  std_fill_spec buf first last (gen ()) hfl hb

/-! ### Insert and Erase -/

theorem Insert_ok (v : SimpleVector α) (p : Nat) (value : ValueRef α)
    (hlen : v.size_ ≤ v.items_.length) (hroom : v.size_ < v.capacity_ → v.size_ < v.items_.length)
    (hsize : v.size_ ≤ v.capacity_) (hp : p ≤ v.size_)
    (hval : ∀ j, value = .element j → j < v.items_.length) :
    ∃ r, v.Insert p value = .ok (r, p) ∧ r.size_ = v.size_ + 1 ∧
      r.capacity_ = (if v.size_ < v.capacity_ then v.capacity_
        else if v.capacity_ = 0 then 1 else 2 * v.capacity_) ∧
      r.items_.length = (if v.size_ < v.capacity_ then v.items_.length else r.capacity_) ∧
      (∀ i, i < p → r.items_[i]? = v.items_[i]?) ∧
      (∀ x, value = .object x → r.items_[p]? = some (some x)) ∧
      (∀ j, value = .element j → r.items_[p]? =
        v.items_[if v.size_ < v.capacity_ ∧ p < j ∧ j ≤ v.size_ then j - 1 else j]?) ∧
      (∀ i, p ≤ i → i < v.size_ → r.items_[i + 1]? = v.items_[i]?) := by
  by_cases hcap : v.size_ < v.capacity_
  · by_cases hend : p = v.size_
    · have hw : v.size_ < v.items_.length := hroom hcap
      obtain ⟨s, hs, hso, hse⟩ := value.copy_assign_ok v.items_ v.items_ v.size_ hw hval
      refine ⟨{ v with items_ := v.items_.set v.size_ s, size_ := v.size_ + 1 }, ?_, rfl,
        ?_, ?_, fun i hi => ?_, fun x hx => ?_, fun j hj => ?_, fun i h1 h2 => ?_⟩
      · simp [SimpleVector.Insert, hcap, hend, hs]
      · simp [hcap]
      · simp [hcap]
      · simp only [List.getElem?_set]
        rw [if_neg (by omega)]
      · simp only [List.getElem?_set]
        rw [if_pos hend.symm, if_pos hw, hso x hx]
      · simp only [List.getElem?_set]
        rw [if_pos hend.symm, if_pos hw, if_neg (by omega), hse j hj]
      · omega
    · obtain ⟨sh, hsh, hslen, hsget⟩ :=
        std_copy_backward_spec v.items_ p v.size_ hp (by have := hroom hcap; omega)
      have hw : p < sh.length := by omega
      obtain ⟨s, hs, hso, hse⟩ :=
        value.copy_assign_ok sh sh p hw (fun j hj => by rw [hslen]; exact hval j hj)
      refine ⟨{ v with items_ := sh.set p s, size_ := v.size_ + 1 }, ?_, rfl,
        ?_, ?_, fun i hi => ?_, fun x hx => ?_, fun j hj => ?_, fun i h1 h2 => ?_⟩
      · simp [SimpleVector.Insert, hcap, hend, hsh, hs]
      · simp [hcap]
      · simp [hcap, hslen]
      · simp only [List.getElem?_set]
        rw [if_neg (by omega), hsget i, if_neg (by omega)]
      · simp [hw, hso x hx]
      · have hpj : (sh.set p s)[p]? = some s := by simp [hw]
        show (sh.set p s)[p]? = _
        rw [hpj, ← hse j hj, hsget j]
        by_cases hc : p < j ∧ j ≤ v.size_
        · rw [if_pos hc, if_pos ⟨hcap, hc⟩]
        · rw [if_neg hc, if_neg (fun h => hc h.2)]
      · simp only [List.getElem?_set]
        rw [if_neg (by omega), hsget (i + 1), if_pos (by omega)]
        rfl
  · have hfull : v.size_ = v.capacity_ := by omega
    obtain ⟨n1, hn1, hn1len, hn1get⟩ :=
      std_copy_spec v.items_ 0 p (ArrayPtr.alloc (if v.capacity_ = 0 then 1 else 2 * v.capacity_)) 0
        (by omega) (by omega) (by rw [ArrayPtr.length_alloc]; split_ifs <;> omega)
    rw [ArrayPtr.length_alloc] at hn1len
    have hw : p < n1.length := by rw [hn1len]; split_ifs <;> omega
    obtain ⟨s, hs, hso, hse⟩ := value.copy_assign_ok v.items_ n1 p hw hval
    obtain ⟨n3, hn3, hn3len, hn3get⟩ :=
      std_copy_spec v.items_ p v.size_ (n1.set p s) (p + 1) hp (by omega)
        (by rw [List.length_set, hn1len]; split_ifs <;> omega)
    rw [List.length_set, hn1len] at hn3len
    have hpj : n3[p]? = some s := by
      rw [hn3get p, if_neg (by omega)]
      simp [hw]
    refine ⟨{ items_ := n3, size_ := v.size_ + 1,
              capacity_ := if v.capacity_ = 0 then 1 else 2 * v.capacity_ }, ?_, rfl,
        ?_, ?_, fun i hi => ?_, fun x hx => ?_, fun j hj => ?_, fun i h1 h2 => ?_⟩
    · simp [SimpleVector.Insert, hcap, hn1, hs, hn3, ArrayPtr.swap]
    · simp [hcap]
    · simp [hcap, hn3len]
    · show n3[i]? = _
      rw [hn3get i, if_neg (by omega)]
      simp only [List.getElem?_set]
      rw [if_neg (by omega), hn1get i, if_pos (by omega)]
      simp
    · show n3[p]? = _
      rw [hpj, hso x hx]
    · show n3[p]? = _
      rw [hpj, if_neg (fun h => hcap h.1), hse j hj]
    · show n3[i + 1]? = _
      rw [hn3get (i + 1), if_pos (by omega)]
      congr 1
      omega

theorem Insert_move_ok (v : SimpleVector α) (p : Nat) (x : α)
    (hlen : v.size_ ≤ v.items_.length) (hroom : v.size_ < v.capacity_ → v.size_ < v.items_.length)
    (hsize : v.size_ ≤ v.capacity_) (hp : p ≤ v.size_) :
    ∃ r, v.Insert_move p (.object x) = .ok (r, p) ∧ r.size_ = v.size_ + 1 ∧
      r.capacity_ = (if v.size_ < v.capacity_ then v.capacity_
        else if v.capacity_ = 0 then 1 else 2 * v.capacity_) ∧
      r.items_.length = (if v.size_ < v.capacity_ then v.items_.length else r.capacity_) ∧
      (∀ i, i < p → r.items_[i]? = v.items_[i]?) ∧ r.items_[p]? = some (some x) ∧
      (∀ i, p ≤ i → i < v.size_ → r.items_[i + 1]? = v.items_[i]?) := by
  have hassert : ¬ ¬ p ≤ v.size_ := by omega
  by_cases hcap : v.size_ < v.capacity_
  · by_cases hend : p = v.size_
    · have hw : v.size_ < v.items_.length := hroom hcap
      refine ⟨{ v with items_ := v.items_.set v.size_ (some x), size_ := v.size_ + 1 }, ?_, rfl,
        ?_, ?_, fun i hi => ?_, ?_, fun i h1 h2 => ?_⟩
      · simp [SimpleVector.Insert_move, hcap, hend, ValueRef.move_assign_within_object,
          ArrayPtr.write_eq_ok hw]
      · simp [hcap]
      · simp [hcap]
      · simp only [List.getElem?_set]
        rw [if_neg (by omega)]
      · simp only [List.getElem?_set]
        rw [if_pos hend.symm, if_pos hw]
      · omega
    · obtain ⟨s, hs, hslen, hsget⟩ :=
        std_move_backward_spec v.items_ p v.size_ hp (by have := hroom hcap; omega)
      have hw : p < s.length := by omega
      refine ⟨{ v with items_ := s.set p (some x), size_ := v.size_ + 1 }, ?_, rfl,
        ?_, ?_, fun i hi => ?_, ?_, fun i h1 h2 => ?_⟩
      · simp [SimpleVector.Insert_move, hp, hcap, hend, hs, ValueRef.move_assign_within_object,
          ArrayPtr.write_eq_ok hw]
      · simp [hcap]
      · simp [hcap, hslen]
      · simp only [List.getElem?_set]
        rw [if_neg (by omega), hsget i, if_neg (by omega), if_neg (by omega)]
      · simp [hw]
      · simp only [List.getElem?_set]
        rw [if_neg (by omega), hsget (i + 1), if_pos (by omega)]
        rfl
  · have hfull : v.size_ = v.capacity_ := by omega
    obtain ⟨o1, n1, hn1, ho1len, hn1len, hn1get, ho1get⟩ :=
      std_move_spec v.items_ 0 p (ArrayPtr.alloc (if v.capacity_ = 0 then 1 else 2 * v.capacity_)) 0
        (by omega) (by omega) (by rw [ArrayPtr.length_alloc]; split_ifs <;> omega)
    rw [ArrayPtr.length_alloc] at hn1len
    have hw : p < n1.length := by rw [hn1len]; split_ifs <;> omega
    obtain ⟨o2, n3, hn3, _, hn3len, hn3get, _⟩ :=
      std_move_spec o1 p v.size_ (n1.set p (some x)) (p + 1) hp (by omega)
        (by rw [List.length_set, hn1len]; split_ifs <;> omega)
    rw [List.length_set, hn1len] at hn3len
    refine ⟨{ items_ := n3, size_ := v.size_ + 1,
              capacity_ := if v.capacity_ = 0 then 1 else 2 * v.capacity_ }, ?_, rfl,
        ?_, ?_, fun i hi => ?_, ?_, fun i h1 h2 => ?_⟩
    · simp [SimpleVector.Insert_move, hp, hcap, hn1, ValueRef.move_assign_object,
        ArrayPtr.write_eq_ok hw, Except.map, hn3, ArrayPtr.swap]
    · simp [hcap]
    · simp [hcap, hn3len]
    · show n3[i]? = _
      rw [hn3get i, if_neg (by omega)]
      simp only [List.getElem?_set]
      rw [if_neg (by omega), hn1get i, if_pos (by omega)]
      simp
    · show n3[p]? = _
      rw [hn3get p, if_neg (by omega)]
      simp [hw]
    · show n3[i + 1]? = _
      rw [hn3get (i + 1), if_pos (by omega), ho1get, if_neg (by omega)]
      congr 1
      omega

theorem Erase_ok (v : SimpleVector α) (p : Nat)
    (hslots : v.size_ ≤ v.items_.length) (hp : p < v.size_) :
    ∃ r, v.Erase p = .ok (r, p) ∧ r.size_ = v.size_ - 1 ∧ r.capacity_ = v.capacity_ ∧
      r.items_.length = v.items_.length ∧
      (∀ i, i < p → r.items_[i]? = v.items_[i]?) ∧
      (∀ i, p ≤ i → i < v.size_ - 1 → r.items_[i]? = v.items_[i + 1]?) := by
  obtain ⟨s, hs, hslen, hsget⟩ := std_move_within_spec v.items_ p v.size_ (by omega) hslots
  refine ⟨{ v with items_ := s, size_ := v.size_ - 1 }, ?_, rfl, rfl, hslen,
    fun i hi => ?_, fun i h1 h2 => ?_⟩
  · simp [SimpleVector.Erase, hp, hs]
  · show s[i]? = _
    rw [hsget i, if_neg (by omega), if_neg (by omega)]
  · show s[i]? = _
    rw [hsget i, if_pos (by omega)]

/-! ### Accesses outside the storage -/

theorem ArrayPtr.read_error {p : ArrayPtr α} {i : Nat} {e : Fault}
    (h : ArrayPtr.read p i = .error e) : e = .undefined_behaviour := by
  unfold ArrayPtr.read at h
  split at h
  · cases h
  · cases h; rfl

theorem ArrayPtr.write_error {p : ArrayPtr α} {i : Nat} {s : Option α} {e : Fault}
    (h : ArrayPtr.write p i s = .error e) : e = .undefined_behaviour := by
  unfold ArrayPtr.write at h
  split at h
  · cases h
  · cases h; rfl

theorem ArrayPtr.write_ok_iff {p r : ArrayPtr α} {i : Nat} {s : Option α} :
    ArrayPtr.write p i s = .ok r ↔ i < p.length ∧ r = p.set i s := by
  unfold ArrayPtr.write
  split
  · constructor
    · intro h; cases h; exact ⟨by assumption, rfl⟩
    · rintro ⟨_, rfl⟩; rfl
  · constructor
    · intro h; cases h
    · rintro ⟨h, _⟩; omega

theorem copy_loop_overflow (src : ArrayPtr α) : ∀ (n first : Nat) (dst : ArrayPtr α) (d : Nat),
    d ≤ dst.length → dst.length < d + n →
    copy_loop src n first dst d = .error .undefined_behaviour := by
  intro n
  induction n with
  | zero => intro first dst d h1 h2; omega
  | succ n ih =>
    intro first dst d h1 h2
    cases hr : ArrayPtr.read src first with
    | error e => simp only [copy_loop, hr, ArrayPtr.read_error hr]
    | ok x =>
      cases hw : ArrayPtr.write dst d x with
      | error e => simp only [copy_loop, hr, hw, ArrayPtr.write_error hw]
      | ok dst1 =>
        obtain ⟨hlt, rfl⟩ := ArrayPtr.write_ok_iff.mp hw
        simp only [copy_loop, hr, hw]
        exact ih (first + 1) _ (d + 1) (by simp only [List.length_set]; omega)
          (by simp only [List.length_set]; omega)

theorem move_loop_overflow : ∀ (n : Nat) (src : ArrayPtr α) (first : Nat) (dst : ArrayPtr α)
    (d : Nat), d ≤ dst.length → dst.length < d + n →
    move_loop n src first dst d = .error .undefined_behaviour := by
  intro n
  induction n with
  | zero => intro src first dst d h1 h2; omega
  | succ n ih =>
    intro src first dst d h1 h2
    cases hr : ArrayPtr.read src first with
    | error e => simp only [move_loop, hr, ArrayPtr.read_error hr]
    | ok x =>
      cases hw : ArrayPtr.write dst d x with
      | error e => simp only [move_loop, hr, hw, ArrayPtr.write_error hw]
      | ok dst1 =>
        obtain ⟨hlt, rfl⟩ := ArrayPtr.write_ok_iff.mp hw
        cases hw2 : ArrayPtr.write src first none with
        | error e => simp only [move_loop, hr, hw, hw2, ArrayPtr.write_error hw2]
        | ok src1 =>
          simp only [move_loop, hr, hw, hw2]
          exact ih _ (first + 1) _ (d + 1) (by simp only [List.length_set]; omega)
            (by simp only [List.length_set]; omega)

theorem std_move_ok_le {src dst : ArrayPtr α} {r : ArrayPtr α × ArrayPtr α} {last : Nat}
    (h : std_move src 0 last dst 0 = .ok r) : last ≤ dst.length := by
  by_contra hlt
  have hov := move_loop_overflow (last - 0) src 0 dst 0 (by omega) (by omega)
  simp only [std_move, Nat.not_lt_zero, if_false] at h
  rw [hov] at h
  cases h

/-! ### PushBack -/

theorem push_back_new_size_small {size_ : Nat} (h : size_ < 2 ^ 30) :
    push_back_new_size size_ = .ok (max 1 (2 * size_)) := by
  have h1 : size_ % 2 ^ 32 = size_ := Nat.mod_eq_of_lt (by omega)
  have h2 : size_ % 2 ^ 32 < 2 ^ 31 := by omega
  simp only [push_back_new_size, static_cast_int, if_pos h2, h1, INT_MIN, INT_MAX]
  rw [if_neg (by omega)]
  congr 1
  omega

theorem PushBack_move_ok (v : SimpleVector α) (x : α)
    (hlen : v.size_ ≤ v.items_.length) (hroom : v.size_ < v.capacity_ → v.size_ < v.items_.length)
    (hsmall : v.size_ < 2 ^ 30) :
    ∃ r, v.PushBack_move x = .ok r ∧ r.size_ = v.size_ + 1 ∧
      r.capacity_ = (if v.size_ < v.capacity_ then v.capacity_ else max 1 (2 * v.size_)) ∧
      r.items_.length = (if v.size_ < v.capacity_ then v.items_.length else r.capacity_) ∧
      (∀ i, i < v.size_ → r.items_[i]? = v.items_[i]?) ∧
      r.items_[v.size_]? = some (some x) := by
  by_cases hcap : v.size_ < v.capacity_
  · have hw : v.size_ < v.items_.length := hroom hcap
    refine ⟨{ v with items_ := v.items_.set v.size_ (some x), size_ := v.size_ + 1 }, ?_, rfl,
      ?_, ?_, fun i hi => ?_, ?_⟩
    · simp [SimpleVector.PushBack_move, hcap, ArrayPtr.write_eq_ok hw]
    · simp [hcap]
    · simp [hcap]
    · simp only [List.getElem?_set]
      rw [if_neg (by omega)]
    · simp [hw]
  · obtain ⟨o1, n1, hn1, _, hn1len, hn1get, _⟩ :=
      std_move_spec v.items_ 0 v.size_ (ArrayPtr.alloc (max 1 (2 * v.size_))) 0
        (by omega) (by omega) (by rw [ArrayPtr.length_alloc]; omega)
    rw [ArrayPtr.length_alloc] at hn1len
    have hw : v.size_ < n1.length := by omega
    refine ⟨{ items_ := n1.set v.size_ (some x), size_ := v.size_ + 1,
              capacity_ := max 1 (2 * v.size_) }, ?_, rfl, ?_, ?_, fun i hi => ?_, ?_⟩
    · simp [SimpleVector.PushBack_move, hcap, push_back_new_size_small hsmall, hn1,
        ArrayPtr.write_eq_ok hw, ArrayPtr.swap]
    · simp [hcap]
    · simp [hcap, hn1len]
    · simp only [List.getElem?_set]
      rw [if_neg (by omega), hn1get i, if_pos (by omega)]
      simp
    · simp [hw]

theorem PushBack_full_faults (v : SimpleVector α) (x : α)
    (hfull : ¬ v.size_ < v.capacity_) (hslots : v.items_.length ≤ v.size_) :
    ∃ e, v.PushBack x = .error e := by
  have hw : ¬ v.size_ < v.items_.length := by omega
  simp only [SimpleVector.PushBack, if_neg hfull]
  cases h1 : push_back_new_size v.size_ with
  | error e => exact ⟨e, rfl⟩
  | ok ns =>
    dsimp only
    cases h2 : std_copy v.items_ 0 v.size_ (ArrayPtr.alloc ns) 0 with
    | error e => exact ⟨e, rfl⟩
    | ok nv => exact ⟨.undefined_behaviour, by simp [ArrayPtr.swap, ArrayPtr.write, hw]⟩

theorem ArrayPtr.read_congr {a b : ArrayPtr α} {i j : Nat} (h : a[i]? = b[j]?) :
    ArrayPtr.read a i = ArrayPtr.read b j := by
  simp only [ArrayPtr.read, h]

theorem ArrayPtr.read_of_getElem? {a : ArrayPtr α} {i : Nat} {s : Option α} (h : a[i]? = some s) :
    ArrayPtr.read a i = .ok s := by
  simp only [ArrayPtr.read, h]

theorem At_eq (v : SimpleVector α) (i : Nat) (h : i < v.size_) :
    v.At i = (v.subscript i).map (fun s => (s, v)) ∧ v.At_const i = v.subscript i := by
  have hn : ¬ i ≥ v.size_ := by omega
  constructor
  · simp only [SimpleVector.At, if_neg hn, SimpleVector.subscript]
    cases ArrayPtr.read v.items_ i <;> rfl
  · simp only [SimpleVector.At_const, if_neg hn, SimpleVector.subscript]

theorem subscript_ne_out_of_range (v : SimpleVector α) (i : Nat) :
    v.subscript i ≠ .error .out_of_range := by
  intro h
  have := ArrayPtr.read_error h
  cases this

theorem PushBack_move_new_size_error (v : SimpleVector α) (x : α) (e : Fault)
    (hfull : ¬ v.size_ < v.capacity_) (h : push_back_new_size v.size_ = .error e) :
    v.PushBack_move x = .error e := by
  simp only [SimpleVector.PushBack_move, if_neg hfull, h]

theorem PushBack_move_overflow (v : SimpleVector α) (x : α) (ns : Nat)
    (hfull : ¬ v.size_ < v.capacity_) (h : push_back_new_size v.size_ = .ok ns)
    (hlt : ns < v.size_) : v.PushBack_move x = .error .undefined_behaviour := by
  have hov := move_loop_overflow (v.size_ - 0) v.items_ 0 (ArrayPtr.alloc ns) 0 (by omega)
    (by rw [ArrayPtr.length_alloc]; omega)
  simp only [SimpleVector.PushBack_move, if_neg hfull, h, std_move, Nat.not_lt_zero, if_false,
    hov]

theorem PushBack_overflow (v : SimpleVector α) (x : α) (ns : Nat)
    (hfull : ¬ v.size_ < v.capacity_) (h : push_back_new_size v.size_ = .ok ns)
    (hlt : ns < v.size_) : v.PushBack x = .error .undefined_behaviour := by
  have hov := copy_loop_overflow v.items_ (v.size_ - 0) 0 (ArrayPtr.alloc ns) 0 (by omega)
    (by rw [ArrayPtr.length_alloc]; omega)
  simp only [SimpleVector.PushBack, if_neg hfull, h, std_copy, Nat.not_lt_zero, if_false, hov]

/-! ### Copy construction and equality -/

theorem size_le_length_of_live {v : SimpleVector α}
    (hlive : ∀ i, i < v.size_ → ∃ x, v.items_[i]? = some (some x)) :
    v.size_ ≤ v.items_.length := by
  by_contra hlt
  obtain ⟨x, hx⟩ := hlive v.items_.length (by omega)
  rw [List.getElem?_eq_none (Nat.le_refl _)] at hx
  cases hx

theorem ctor_copy_ok (other : SimpleVector α) (hle : other.size_ ≤ other.items_.length) :
    ∃ r, SimpleVector.ctor_copy other = .ok r ∧ r.size_ = other.size_ ∧
      r.capacity_ = other.capacity_ ∧ r.items_.length = other.size_ ∧
      ∀ i, i < other.size_ → r.items_[i]? = other.items_[i]? := by
  obtain ⟨s, hs, hslen, hsget⟩ :=
    std_copy_spec other.items_ 0 other.size_ (ArrayPtr.alloc other.size_) 0 (by omega) hle
      (by rw [ArrayPtr.length_alloc]; omega)
  rw [ArrayPtr.length_alloc] at hslen
  refine ⟨{ items_ := s, size_ := other.size_, capacity_ := other.capacity_ }, ?_, rfl, rfl,
    hslen, fun i hi => ?_⟩
  · simp only [SimpleVector.ctor_copy, SimpleVector.GetSize, SimpleVector.GetCapacity, hs]
  · show s[i]? = _
    rw [hsget i, if_pos (by omega)]
    simp

theorem ArrayPtr.read_value_of_getElem? {a : ArrayPtr α} {i : Nat} {x : α}
    (h : a[i]? = some (some x)) : ArrayPtr.read_value a i = .ok x := by
  simp only [ArrayPtr.read_value, h]

theorem equal_loop_same [DecidableEq α] : ∀ (n : Nat) (a : ArrayPtr α) (first1 : Nat)
    (b : ArrayPtr α) (first2 : Nat),
    (∀ k, k < n → ∃ x, a[first1 + k]? = some (some x) ∧ b[first2 + k]? = some (some x)) →
    equal_loop n a first1 b first2 = .ok true := by
  intro n
  induction n with
  | zero => intro a first1 b first2 _; rfl
  | succ n ih =>
    intro a first1 b first2 h
    obtain ⟨x, hx1, hx2⟩ := h 0 (by omega)
    simp only [Nat.add_zero] at hx1 hx2
    simp only [equal_loop, ArrayPtr.read_value_of_getElem? hx1,
      ArrayPtr.read_value_of_getElem? hx2, if_true]
    apply ih
    intro k hk
    obtain ⟨y, hy1, hy2⟩ := h (k + 1) (by omega)
    exact ⟨y, by rw [← hy1]; congr 1; omega, by rw [← hy2]; congr 1; omega⟩

theorem op_eq_same_elements [DecidableEq α] (a b : SimpleVector α) (hsize : a.size_ = b.size_)
    (h : ∀ i, i < a.size_ → ∃ x, a.items_[i]? = some (some x) ∧ b.items_[i]? = some (some x)) :
    op_eq a b = .ok true := by
  have hno : ¬ (a.size_ < 0 ∨ b.size_ < 0) := by omega
  simp only [op_eq, SimpleVector.GetSize, hsize, if_true, std_equal, hno, if_false,
    Nat.sub_zero, ne_eq, not_true_eq_false]
  apply equal_loop_same
  intro k hk
  obtain ⟨x, h1, h2⟩ := h k (by omega)
  exact ⟨x, by simpa using h1, by simpa using h2⟩

/-! ### What a returning call implies -/

theorem of_ok {β : Type} {e : Result β} {r : β} {P : β → Prop}
    (hex : ∃ r', e = .ok r' ∧ P r') (h : e = .ok r) : P r := by
  obtain ⟨r', h', hP⟩ := hex
  rw [h] at h'
  cases h'
  exact hP

theorem ArrayPtr.read_ok_iff {p : ArrayPtr α} {i : Nat} {s : Option α} :
    ArrayPtr.read p i = .ok s ↔ p[i]? = some s := by
  unfold ArrayPtr.read
  cases h : p[i]? with
  | none => simp
  | some t => simp

theorem copy_backward_loop_ok_bound : ∀ (n : Nat) (buf : ArrayPtr α) (last d_last : Nat)
    (r : ArrayPtr α), copy_backward_loop n buf last d_last = .ok r → 0 < n →
    d_last - 1 < buf.length := by
  intro n buf last d_last r h hn
  obtain ⟨m, rfl⟩ : ∃ m, n = m + 1 := ⟨n - 1, by omega⟩
  cases hr : ArrayPtr.read buf (last - 1) with
  | error e => simp only [copy_backward_loop, hr] at h; cases h
  | ok x =>
    cases hw : ArrayPtr.write buf (d_last - 1) x with
    | error e => simp only [copy_backward_loop, hr, hw] at h; cases h
    | ok b1 => exact (ArrayPtr.write_ok_iff.mp hw).1

theorem move_backward_loop_ok_bound : ∀ (n : Nat) (buf : ArrayPtr α) (last d_last : Nat)
    (r : ArrayPtr α), move_backward_loop n buf last d_last = .ok r → 0 < n →
    d_last - 1 < buf.length := by
  intro n buf last d_last r h hn
  obtain ⟨m, rfl⟩ : ∃ m, n = m + 1 := ⟨n - 1, by omega⟩
  cases hr : ArrayPtr.read buf (last - 1) with
  | error e => simp only [move_backward_loop, hr] at h; cases h
  | ok x =>
    cases hw : ArrayPtr.write buf (d_last - 1) x with
    | error e => simp only [move_backward_loop, hr, hw] at h; cases h
    | ok b1 => exact (ArrayPtr.write_ok_iff.mp hw).1

theorem fill_loop_ok_bound (value : α) : ∀ (n : Nat) (buf : ArrayPtr α) (first : Nat)
    (r : ArrayPtr α), fill_loop n buf first value = .ok r → 0 < n → first + n ≤ buf.length := by
  intro n
  induction n with
  | zero => intro buf first r _ h; omega
  | succ n ih =>
    intro buf first r h _
    cases hw : ArrayPtr.write buf first (some value) with
    | error e => simp only [fill_loop, hw] at h; cases h
    | ok b1 =>
      simp only [fill_loop, hw] at h
      obtain ⟨hlt, rfl⟩ := ArrayPtr.write_ok_iff.mp hw
      by_cases hn : 0 < n
      · have := ih _ _ _ h hn
        simp only [List.length_set] at this
        omega
      · omega

theorem push_back_new_size_ok_small {size_ ns : Nat} (h : push_back_new_size size_ = .ok ns)
    (hle : size_ ≤ ns) : size_ < 2 ^ 30 := by
  unfold push_back_new_size at h
  simp only [INT_MIN, INT_MAX] at h
  by_cases hov : static_cast_int size_ * 2 < -(2 ^ 31) ∨ 2 ^ 31 - 1 < static_cast_int size_ * 2
  · rw [if_pos hov] at h
    cases h
  · rw [if_neg hov] at h
    have hns : ns = (max 1 (static_cast_int size_ * 2)).toNat := (Except.ok.inj h).symm
    unfold static_cast_int at hov hns
    split_ifs at hov hns <;> omega

theorem Insert_ok_room {v r : SimpleVector α} {p it : Nat} {x : ValueRef α}
    (hp : p ≤ v.size_) (hcap : v.size_ < v.capacity_) (h : v.Insert p x = .ok (r, it)) :
    v.size_ < v.items_.length := by
  unfold SimpleVector.Insert at h
  simp only [if_pos hcap] at h
  by_cases hend : p = v.size_
  · simp only [if_pos hend] at h
    split at h
    · cases h
    · rename_i items hw
      exact ValueRef.copy_assign_ok_lt hw
  · simp only [if_neg hend] at h
    split at h
    · cases h
    · rename_i shifted hs
      have hnot : ¬ v.size_ < p := by omega
      simp only [std_copy_backward, if_neg hnot] at hs
      have := copy_backward_loop_ok_bound _ _ _ _ _ hs (by omega)
      omega

theorem Insert_move_ok_room {v r : SimpleVector α} {p it : Nat} {x : ValueRef α}
    (hp : p ≤ v.size_) (hcap : v.size_ < v.capacity_) (h : v.Insert_move p x = .ok (r, it)) :
    v.size_ < v.items_.length := by
  unfold SimpleVector.Insert_move at h
  have hassert : ¬ ¬ p ≤ v.size_ := by omega
  simp only [if_neg hassert, if_pos hcap] at h
  by_cases hend : p = v.size_
  · simp only [if_pos hend] at h
    split at h
    · cases h
    · rename_i items hw
      exact ValueRef.move_assign_within_ok_lt hw
  · simp only [if_neg hend] at h
    split at h
    · cases h
    · rename_i shifted hs
      have hnot : ¬ v.size_ < p := by omega
      simp only [std_move_backward, if_neg hnot] at hs
      have := move_backward_loop_ok_bound _ _ _ _ _ hs (by omega)
      omega

theorem Valid.size_le_length {v : SimpleVector α} (hv : Valid v) : v.size_ ≤ v.items_.length :=
  size_le_length_of_live hv.2.2

/-! ### Constructors, Reserve and Resize -/

theorem ctor_size_value_ok (size : Nat) (value : α) :
    ∃ r, SimpleVector.ctor_size_value size value = .ok r ∧ r.size_ = size ∧
      r.capacity_ = size ∧ r.items_.length = size ∧
      ∀ i, i < size → r.items_[i]? = some (some value) := by
  obtain ⟨s, hs, hslen, hsget⟩ :=
    std_fill_spec (ArrayPtr.alloc size) 0 size value (by omega)
      (by rw [ArrayPtr.length_alloc])
  rw [ArrayPtr.length_alloc] at hslen
  refine ⟨{ items_ := s, size_ := size, capacity_ := size }, ?_, rfl, rfl, hslen,
    fun i hi => ?_⟩
  · simp only [SimpleVector.ctor_size_value, hs]
  · show s[i]? = _
    rw [hsget i, if_pos (by omega)]

theorem ctor_size_ok [Inhabited α] (size : Nat) :
    ∃ r : SimpleVector α, SimpleVector.ctor_size size = .ok r ∧ r.size_ = size ∧
      r.capacity_ = size ∧ r.items_.length = size ∧
      ∀ i, i < size → r.items_[i]? = some (some default) :=
  ctor_size_value_ok size default

theorem ctor_init_ok (init : List α) :
    ∃ r, SimpleVector.ctor_init init = .ok r ∧ r.size_ = init.length ∧
      r.capacity_ = init.length ∧ r.items_.length = init.length ∧
      ∀ i, i < init.length → r.items_[i]? = (init[i]?).map some := by
  obtain ⟨s, hs, hslen, hsget⟩ :=
    copy_init_loop_spec init (ArrayPtr.alloc init.length) 0
      (by rw [ArrayPtr.length_alloc]; omega)
  rw [ArrayPtr.length_alloc] at hslen
  refine ⟨{ items_ := s, size_ := init.length, capacity_ := init.length }, ?_, rfl, rfl, hslen,
    fun i hi => ?_⟩
  · simp only [SimpleVector.ctor_init, hs]
  · show s[i]? = _
    rw [hsget i, if_pos (by omega)]
    simp

theorem Reserve_ok (v : SimpleVector α) (n : Nat) (hlen : v.size_ ≤ v.items_.length)
    (hsize : v.size_ ≤ v.capacity_) :
    ∃ r, v.Reserve n = .ok r ∧ r.size_ = v.size_ ∧ r.capacity_ = max v.capacity_ n ∧
      r.items_.length = (if n > v.capacity_ then n else v.items_.length) ∧
      (∀ i, i < v.size_ → r.items_[i]? = v.items_[i]?) ∧
      (¬ n > v.capacity_ → r = v) := by
  by_cases hn : n > v.capacity_
  · obtain ⟨s, hs, hslen, hsget⟩ :=
      std_copy_spec v.items_ 0 v.size_ (ArrayPtr.alloc n) 0 (by omega) hlen
        (by rw [ArrayPtr.length_alloc]; omega)
    rw [ArrayPtr.length_alloc] at hslen
    refine ⟨{ items_ := s, size_ := v.size_, capacity_ := n }, ?_, rfl, ?_, ?_,
      fun i hi => ?_, fun h => absurd hn h⟩
    · simp only [SimpleVector.Reserve, if_pos hn, hs, ArrayPtr.swap]
    · show n = max v.capacity_ n
      omega
    · rw [if_pos hn]; exact hslen
    · show s[i]? = _
      rw [hsget i, if_pos (by omega)]
      simp
  · refine ⟨v, ?_, rfl, ?_, ?_, fun i _ => rfl, fun _ => rfl⟩
    · simp only [SimpleVector.Reserve, if_neg hn]
    · omega
    · rw [if_neg hn]

theorem Resize_growth_ok [Inhabited α] (v : SimpleVector α) (n : Nat)
    (hlen : v.size_ ≤ v.items_.length) (hsize : v.size_ ≤ v.capacity_) (hn : n > v.capacity_) :
    ∃ r, v.Resize n = .ok r ∧ r.size_ = n ∧ r.capacity_ = max n (v.capacity_ * 2) ∧
      r.items_.length = n ∧
      (∀ i, i < v.size_ → r.items_[i]? = v.items_[i]?) ∧
      (∀ i, v.size_ ≤ i → i < n → r.items_[i]? = some (some default)) := by
  obtain ⟨o, s, hs, _, hslen, hsget, _⟩ :=
    std_move_spec v.items_ 0 v.size_ (ArrayPtr.alloc n) 0 (by omega) hlen
      (by rw [ArrayPtr.length_alloc]; omega)
  rw [ArrayPtr.length_alloc] at hslen
  have he : v.size_ + (n - v.size_) = n := by omega
  obtain ⟨g, hg, hglen, hgget⟩ :=
    std_generate_spec s v.size_ n (fun _ => (default : α)) (by omega) (by omega)
  refine ⟨{ items_ := g, size_ := n, capacity_ := max n (v.capacity_ * 2) }, ?_, rfl, rfl,
    by rw [← hslen]; exact hglen, fun i hi => ?_, fun i h1 h2 => ?_⟩
  · simp only [SimpleVector.Resize, if_pos hn, hs, ArrayPtr.swap, he, hg]
  · show g[i]? = _
    rw [hgget i, if_neg (by omega), hsget i, if_pos (by omega)]
    simp
  · show g[i]? = _
    rw [hgget i, if_pos (by omega)]

theorem Resize_within_ok [Inhabited α] (v : SimpleVector α) (n : Nat)
    (hlo : n > v.size_) (hhi : n < v.capacity_) (hlen : n ≤ v.items_.length) :
    ∃ r, v.Resize n = .ok r ∧ r.size_ = n ∧ r.capacity_ = v.capacity_ ∧
      r.items_.length = v.items_.length ∧
      (∀ i, i < v.size_ → r.items_[i]? = v.items_[i]?) ∧
      (∀ i, v.size_ ≤ i → i < n → r.items_[i]? = some (some default)) := by
  have he : v.size_ + (n - v.size_) = n := by omega
  obtain ⟨g, hg, hglen, hgget⟩ :=
    std_generate_spec v.items_ v.size_ n (fun _ => (default : α)) (by omega) hlen
  have h1 : ¬ n > v.capacity_ := by omega
  refine ⟨{ v with items_ := g, size_ := n }, ?_, rfl, rfl, hglen, fun i hi => ?_,
    fun i h1 h2 => ?_⟩
  · simp only [SimpleVector.Resize, if_neg h1, hlo, hhi, and_self, if_true, he, hg]
  · show g[i]? = _
    rw [hgget i, if_neg (by omega)]
  · show g[i]? = _
    rw [hgget i, if_pos (by omega)]

theorem Resize_within_ok_bound [Inhabited α] {v r : SimpleVector α} {n : Nat}
    (hlo : n > v.size_) (hhi : n < v.capacity_) (h : v.Resize n = .ok r) :
    n ≤ v.items_.length := by
  have h1 : ¬ n > v.capacity_ := by omega
  have hnot : ¬ v.size_ + (n - v.size_) < v.size_ := by omega
  simp only [SimpleVector.Resize, if_neg h1, hlo, hhi, and_self, if_true, std_generate,
    if_neg hnot] at h
  split at h
  · cases h
  · rename_i items hf
    have := fill_loop_ok_bound _ _ _ _ _ hf (by omega)
    omega

theorem PushBack_within_ok (v : SimpleVector α) (x : α) (hcap : v.size_ < v.capacity_)
    (hroom : v.size_ < v.items_.length) :
    v.PushBack x = .ok { v with items_ := v.items_.set v.size_ (some x), size_ := v.size_ + 1 } ∧
    v.PushBack_move x
      = .ok { v with items_ := v.items_.set v.size_ (some x), size_ := v.size_ + 1 } := by
  simp only [SimpleVector.PushBack, SimpleVector.PushBack_move, if_pos hcap,
    ArrayPtr.write_eq_ok hroom, and_self]

theorem PushBack_within_ok_room {v r : SimpleVector α} {x : α} (hcap : v.size_ < v.capacity_)
    (h : v.PushBack x = .ok r ∨ v.PushBack_move x = .ok r) : v.size_ < v.items_.length := by
  simp only [SimpleVector.PushBack, SimpleVector.PushBack_move, if_pos hcap, or_self] at h
  split at h
  · cases h
  · rename_i items hw
    exact (ArrayPtr.write_ok_iff.mp hw).1

/-! ### The class invariant is kept by every returning call -/

theorem Valid.of_fields {v r : SimpleVector α} (hv : Valid v)
    (hsize : r.size_ ≤ r.capacity_) (hlen : r.items_.length ≤ r.capacity_)
    (hsz : r.size_ ≤ v.size_) (hget : ∀ i, i < r.size_ → r.items_[i]? = v.items_[i]?) :
    Valid r :=
  ⟨hsize, hlen, fun i hi => by rw [hget i hi]; exact hv.2.2 i (by omega)⟩

theorem Valid.ctor_default : Valid (SimpleVector.ctor_default : SimpleVector α) :=
  ⟨Nat.le_refl 0, Nat.le_refl 0, fun i hi => absurd hi (Nat.not_lt_zero i)⟩

theorem Valid.ctor_reserve (to_res : ReserveProxyObj) :
    Valid (SimpleVector.ctor_reserve to_res : SimpleVector α) :=
  ⟨Nat.zero_le _, Nat.zero_le _, fun i hi => absurd hi (Nat.not_lt_zero i)⟩

theorem Valid.ctor_size_value {size : Nat} {value : α} {r : SimpleVector α}
    (h : SimpleVector.ctor_size_value size value = .ok r) : Valid r := by
  obtain ⟨h1, h2, h3, h4⟩ := of_ok (ctor_size_value_ok size value) h
  exact ⟨by omega, by omega, fun i hi => ⟨value, h4 i (by omega)⟩⟩

theorem Valid.ctor_size [Inhabited α] {size : Nat} {r : SimpleVector α}
    (h : SimpleVector.ctor_size size = .ok r) : Valid r :=
  @Valid.ctor_size_value α size default r h

theorem Valid.ctor_init {init : List α} {r : SimpleVector α}
    (h : SimpleVector.ctor_init init = .ok r) : Valid r := by
  obtain ⟨h1, h2, h3, h4⟩ := of_ok (ctor_init_ok init) h
  refine ⟨by omega, by omega, fun i hi => ?_⟩
  have hi2 : i < init.length := by omega
  rw [h4 i hi2, List.getElem?_eq_getElem hi2]
  exact ⟨_, rfl⟩

theorem Valid.ctor_copy {other r : SimpleVector α} (hv : Valid other)
    (h : SimpleVector.ctor_copy other = .ok r) : Valid r := by
  obtain ⟨h1, h2, h3, h4⟩ := of_ok (ctor_copy_ok other hv.size_le_length) h
  have := hv.1
  exact hv.of_fields (by omega) (by omega) (by omega) (fun i hi => h4 i (by omega))

theorem Valid.ctor_move {other : SimpleVector α} (hv : Valid other) :
    Valid (SimpleVector.ctor_move other).1 ∧ Valid (SimpleVector.ctor_move other).2 :=
  ⟨hv, Nat.le_refl 0, Nat.le_refl 0, fun i hi => absurd hi (Nat.not_lt_zero i)⟩

theorem Valid.Reserve {v r : SimpleVector α} {n : Nat} (hv : Valid v)
    (h : v.Reserve n = .ok r) : Valid r := by
  obtain ⟨h1, h2, h3, h4, _⟩ := of_ok (Reserve_ok v n hv.size_le_length hv.1) h
  have := hv.1
  have := hv.2.1
  refine hv.of_fields (by omega) ?_ (by omega) (fun i hi => h4 i (by omega))
  rw [h3, h2]
  split_ifs <;> omega

theorem Valid.Clear {v : SimpleVector α} (hv : Valid v) : Valid v.Clear :=
  ⟨Nat.zero_le _, hv.2.1, fun i hi => absurd hi (Nat.not_lt_zero i)⟩

theorem Valid.of_grown [Inhabited α] {v r : SimpleVector α} {n : Nat} (hv : Valid v)
    (h1 : r.size_ = n) (hsize : n ≤ r.capacity_) (hlen : r.items_.length ≤ r.capacity_)
    (hlo : ∀ i, i < v.size_ → r.items_[i]? = v.items_[i]?)
    (hhi : ∀ i, v.size_ ≤ i → i < n → r.items_[i]? = some (some default)) : Valid r := by
  refine ⟨by omega, hlen, fun i hi => ?_⟩
  by_cases hi2 : i < v.size_
  · rw [hlo i hi2]; exact hv.2.2 i hi2
  · exact ⟨default, hhi i (by omega) (by omega)⟩

theorem Valid.Resize [Inhabited α] {v r : SimpleVector α} {n : Nat} (hv : Valid v)
    (h : v.Resize n = .ok r) : Valid r := by
  by_cases hn : n > v.capacity_
  · obtain ⟨h1, h2, h3, h4, h5⟩ :=
      of_ok (Resize_growth_ok v n hv.size_le_length hv.1 hn) h
    exact hv.of_grown h1 (by omega) (by omega) h4 h5
  · by_cases hw : n > v.size_ ∧ n < v.capacity_
    · have hb := Resize_within_ok_bound hw.1 hw.2 h
      obtain ⟨h1, h2, h3, h4, h5⟩ := of_ok (Resize_within_ok v n hw.1 hw.2 hb) h
      have := hv.2.1
      exact hv.of_grown h1 (by omega) (by omega) h4 h5
    · simp only [SimpleVector.Resize, if_neg hn, if_neg hw] at h
      have := hv.1
      have := hv.2.1
      split_ifs at h with h3
      · cases h
        exact hv.of_fields (show n ≤ v.capacity_ by omega) hv.2.1 (show n ≤ v.size_ by omega)
          (fun i _ => rfl)
      · cases h; exact hv

theorem Valid.of_pushed {v r : SimpleVector α} {x : α} (hv : Valid v)
    (h1 : r.size_ = v.size_ + 1) (hsize : r.size_ ≤ r.capacity_)
    (hlen : r.items_.length ≤ r.capacity_)
    (hlo : ∀ i, i < v.size_ → r.items_[i]? = v.items_[i]?)
    (hat : r.items_[v.size_]? = some (some x)) : Valid r := by
  refine ⟨hsize, hlen, fun i hi => ?_⟩
  by_cases hi2 : i < v.size_
  · rw [hlo i hi2]; exact hv.2.2 i hi2
  · have : i = v.size_ := by omega
    subst this
    exact ⟨x, hat⟩

theorem Valid.push_within {v : SimpleVector α} (x : α) (hv : Valid v)
    (hcap : v.size_ < v.capacity_) (hroom : v.size_ < v.items_.length) :
    Valid { v with items_ := v.items_.set v.size_ (some x), size_ := v.size_ + 1 } := by
  refine hv.of_pushed (x := x) rfl hcap ?_ (fun i hi => ?_) ?_
  · show (v.items_.set v.size_ (some x)).length ≤ v.capacity_
    rw [List.length_set]; exact hv.2.1
  · show (v.items_.set v.size_ (some x))[i]? = _
    rw [List.getElem?_set, if_neg (by omega)]
  · show (v.items_.set v.size_ (some x))[v.size_]? = _
    rw [List.getElem?_set, if_pos rfl, if_pos hroom]

theorem Valid.PushBack {v r : SimpleVector α} {x : α} (hv : Valid v)
    (h : v.PushBack x = .ok r) : Valid r := by
  by_cases hcap : v.size_ < v.capacity_
  · have hroom := PushBack_within_ok_room hcap (Or.inl h)
    rw [(PushBack_within_ok v x hcap hroom).1] at h
    cases h
    exact hv.push_within x hcap hroom
  · obtain ⟨e, he⟩ := PushBack_full_faults v x hcap (by have := hv.2.1; omega)
    rw [he] at h
    cases h

theorem PushBack_move_growth_small {v r : SimpleVector α} {x : α}
    (hfull : ¬ v.size_ < v.capacity_) (h : v.PushBack_move x = .ok r) : v.size_ < 2 ^ 30 := by
  simp only [SimpleVector.PushBack_move, if_neg hfull] at h
  repeat' (first | split at h | dsimp only at h)
  all_goals first
    | (cases h; done)
    | (have hle := std_move_ok_le (by assumption)
       rw [ArrayPtr.length_alloc] at hle
       exact push_back_new_size_ok_small (by assumption) hle)

theorem Valid.PushBack_move {v r : SimpleVector α} {x : α} (hv : Valid v)
    (h : v.PushBack_move x = .ok r) : Valid r := by
  by_cases hcap : v.size_ < v.capacity_
  · have hroom := PushBack_within_ok_room hcap (Or.inr h)
    rw [(PushBack_within_ok v x hcap hroom).2] at h
    cases h
    exact hv.push_within x hcap hroom
  · have hsmall := PushBack_move_growth_small hcap h
    obtain ⟨h1, h2, h3, h4, h5⟩ :=
      of_ok (PushBack_move_ok v x hv.size_le_length (fun hc => absurd hc hcap) hsmall) h
    rw [if_neg hcap] at h2 h3
    exact hv.of_pushed h1 (by omega) (by omega) h4 h5

theorem Valid.PopBack {v : SimpleVector α} (hv : Valid v) : Valid v.PopBack := by
  unfold SimpleVector.PopBack
  split_ifs
  · exact hv.of_fields (show v.size_ - 1 ≤ v.capacity_ by have := hv.1; omega) hv.2.1
      (show v.size_ - 1 ≤ v.size_ by omega) (fun i _ => rfl)
  · exact hv

theorem Valid.of_inserted {v r : SimpleVector α} {x : α} {p : Nat} (hv : Valid v)
    (hp : p ≤ v.size_) (h1 : r.size_ = v.size_ + 1) (hsize : r.size_ ≤ r.capacity_)
    (hlen : r.items_.length ≤ r.capacity_)
    (hlo : ∀ i, i < p → r.items_[i]? = v.items_[i]?)
    (hat : r.items_[p]? = some (some x))
    (hhi : ∀ i, p ≤ i → i < v.size_ → r.items_[i + 1]? = v.items_[i]?) : Valid r := by
  refine ⟨hsize, hlen, fun i hi => ?_⟩
  by_cases hi1 : i < p
  · rw [hlo i hi1]; exact hv.2.2 i (by omega)
  · by_cases hi2 : i = p
    · subst hi2; exact ⟨x, hat⟩
    · obtain ⟨k, rfl⟩ : ∃ k, i = k + 1 := ⟨i - 1, by omega⟩
      rw [hhi k (by omega) (by omega)]
      exact hv.2.2 k (by omega)

theorem Valid.Insert {v r : SimpleVector α} {p it : Nat} {value : ValueRef α} (hv : Valid v)
    (hp : p ≤ v.size_) (hval : ∀ j, value = .element j → j < v.size_)
    (h : v.Insert p value = .ok (r, it)) : Valid r := by
  have hsl := hv.size_le_length
  have hex := Insert_ok v p value hsl (fun hc => Insert_ok_room hp hc h) hv.1 hp
    (fun j hj => by have := hval j hj; omega)
  obtain ⟨r', h', h1, h2, h3, h4, h5, h6, h7⟩ := hex
  rw [h] at h'
  cases h'
  have := hv.1
  have := hv.2.1
  have hat : ∃ x, r.items_[p]? = some (some x) := by
    cases value with
    | object x => exact ⟨x, h5 x rfl⟩
    | element j =>
      have hj := hval j rfl
      rw [h6 j rfl]
      exact hv.2.2 _ (by split_ifs <;> omega)
  obtain ⟨x, hx⟩ := hat
  refine hv.of_inserted hp h1 ?_ ?_ h4 hx h7
  · rw [h1, h2]; split_ifs <;> omega
  · rw [h3, h2]; split_ifs <;> omega

theorem Valid.Insert_move {v r : SimpleVector α} {p it : Nat} {x : α} (hv : Valid v)
    (hp : p ≤ v.size_) (h : v.Insert_move p (.object x) = .ok (r, it)) : Valid r := by
  have hex :=
    Insert_move_ok v p x hv.size_le_length (fun hc => Insert_move_ok_room hp hc h) hv.1 hp
  obtain ⟨r', h', h1, h2, h3, h4, h5, h6⟩ := hex
  rw [h] at h'
  cases h'
  have := hv.1
  have := hv.2.1
  refine hv.of_inserted hp h1 ?_ ?_ h4 h5 h6
  · rw [h1, h2]; split_ifs <;> omega
  · rw [h3, h2]; split_ifs <;> omega

theorem Valid.Erase {v r : SimpleVector α} {p it : Nat} (hv : Valid v)
    (hp : p < v.size_) (h : v.Erase p = .ok (r, it)) : Valid r := by
  obtain ⟨r', h', h1, h2, h3, h4, h5⟩ := Erase_ok v p hv.size_le_length hp
  rw [h] at h'
  cases h'
  have := hv.1
  have := hv.2.1
  refine ⟨by omega, by omega, fun i hi => ?_⟩
  by_cases hi1 : i < p
  · rw [h4 i hi1]; exact hv.2.2 i (by omega)
  · rw [h5 i (by omega) (by omega)]; exact hv.2.2 (i + 1) (by omega)

theorem Valid.assign_copy {v rhs r : SimpleVector α} {b : Bool} (hv : Valid v)
    (hrhs : Valid rhs) (h : v.assign_copy rhs b = .ok r) : Valid r := by
  unfold SimpleVector.assign_copy at h
  split_ifs at h
  · split at h
    · cases h
    · rename_i tmp htmp
      cases h
      exact hrhs.ctor_copy htmp
  · cases h; exact hv

theorem Valid.assign_move [DecidableEq α] {v rhs : SimpleVector α}
    {r : SimpleVector α × SimpleVector α} (hv : Valid v) (hrhs : Valid rhs)
    (h : v.assign_move rhs = .ok r) : Valid r.1 ∧ Valid r.2 := by
  unfold SimpleVector.assign_move at h
  split at h
  · cases h
  · cases h
    exact hrhs.ctor_move
  · cases h
    exact ⟨hv, hrhs⟩

theorem Reachable.valid [DecidableEq α] [Inhabited α] {v : SimpleVector α}
    (h : Reachable v) : Valid v := by
  induction h with
  | ctor_default => exact Valid.ctor_default
  | ctor_size size r h => exact Valid.ctor_size h
  | ctor_size_value size value r h => exact Valid.ctor_size_value h
  | ctor_reserve to_res => exact Valid.ctor_reserve to_res
  | ctor_init init r h => exact Valid.ctor_init h
  | ctor_copy other r _ h ih => exact ih.ctor_copy h
  | ctor_move other _ ih => exact ih.ctor_move.1
  | ctor_move_source other _ ih => exact ih.ctor_move.2
  | Reserve v r n _ h ih => exact ih.Reserve h
  | Clear v _ ih => exact ih.Clear
  | Resize v r n _ h ih => exact ih.Resize h
  | PushBack v r x _ h ih => exact ih.PushBack h
  | PushBack_move v r x _ h ih => exact ih.PushBack_move h
  | PopBack v _ ih => exact ih.PopBack
  | Insert v r p it x _ hp hval h ih => exact ih.Insert hp hval h
  | Insert_move v r p it x _ hp h ih => exact ih.Insert_move hp h
  | Erase v r p it _ hp h ih => exact ih.Erase hp h
  | swap v other _ _ _ ih2 => exact ih2
  | swap_other v other _ _ ih1 _ => exact ih1
  | assign_copy v rhs r b _ _ h ih1 ih2 => exact ih1.assign_copy ih2 h
  | assign_move v rhs r _ _ h ih1 ih2 => exact (ih1.assign_move ih2 h).1
  | assign_move_source v rhs r _ _ h ih1 ih2 => exact (ih1.assign_move ih2 h).2

/-! ### The comparison operators -/

theorem ArrayPtr.read_value_ok_iff {a : ArrayPtr α} {i : Nat} {x : α} :
    ArrayPtr.read_value a i = .ok x ↔ a[i]? = some (some x) := by
  unfold ArrayPtr.read_value
  cases h : a[i]? with
  | none => simp
  | some s =>
    cases s with
    | none => simp
    | some y => simp

theorem ArrayPtr.read_value_congr {a b : ArrayPtr α} {i j : Nat} (h : a[i]? = b[j]?) :
    ArrayPtr.read_value a i = ArrayPtr.read_value b j := by
  simp only [ArrayPtr.read_value, h]

theorem equal_loop_congr [DecidableEq α] : ∀ (n : Nat) (a a' : ArrayPtr α) (first1 : Nat)
    (b b' : ArrayPtr α) (first2 : Nat),
    (∀ k, k < n → a'[first1 + k]? = a[first1 + k]?) →
    (∀ k, k < n → b'[first2 + k]? = b[first2 + k]?) →
    equal_loop n a' first1 b' first2 = equal_loop n a first1 b first2 := by
  intro n
  induction n with
  | zero => intro a a' first1 b b' first2 _ _; rfl
  | succ n ih =>
    intro a a' first1 b b' first2 ha hb
    have h1 : ArrayPtr.read_value a' first1 = ArrayPtr.read_value a first1 :=
      ArrayPtr.read_value_congr (by simpa using ha 0 (by omega))
    have h2 : ArrayPtr.read_value b' first2 = ArrayPtr.read_value b first2 :=
      ArrayPtr.read_value_congr (by simpa using hb 0 (by omega))
    have h3 := ih a a' (first1 + 1) b b' (first2 + 1)
      (fun k hk => by have := ha (k + 1) (by omega); rwa [Nat.add_assoc, Nat.add_comm 1 k])
      (fun k hk => by have := hb (k + 1) (by omega); rwa [Nat.add_assoc, Nat.add_comm 1 k])
    simp only [equal_loop, h1, h2, h3]

theorem equal_loop_true_iff [DecidableEq α] : ∀ (n : Nat) (a : ArrayPtr α) (first1 : Nat)
    (b : ArrayPtr α) (first2 : Nat),
    equal_loop n a first1 b first2 = .ok true ↔
      ∀ k, k < n → ∃ x, a[first1 + k]? = some (some x) ∧ b[first2 + k]? = some (some x) := by
  intro n a first1 b first2
  refine ⟨?_, equal_loop_same n a first1 b first2⟩
  induction n generalizing first1 first2 with
  | zero => intro _ k hk; omega
  | succ n ih =>
    intro h k hk
    cases hx : ArrayPtr.read_value a first1 with
    | error e => simp only [equal_loop, hx] at h; cases h
    | ok x =>
      cases hy : ArrayPtr.read_value b first2 with
      | error e => simp only [equal_loop, hx, hy] at h; cases h
      | ok y =>
        simp only [equal_loop, hx, hy] at h
        by_cases hxy : x = y
        · rw [if_pos hxy] at h
          subst hxy
          cases k with
          | zero =>
            exact ⟨x, by simpa using ArrayPtr.read_value_ok_iff.mp hx,
              by simpa using ArrayPtr.read_value_ok_iff.mp hy⟩
          | succ k =>
            obtain ⟨z, hz1, hz2⟩ := ih (first1 + 1) (first2 + 1) h k (by omega)
            exact ⟨z, by rw [← hz1]; congr 1; omega, by rw [← hz2]; congr 1; omega⟩
        · rw [if_neg hxy] at h
          cases h

theorem equal_loop_returns [DecidableEq α] : ∀ (n : Nat) (a : ArrayPtr α) (first1 : Nat)
    (b : ArrayPtr α) (first2 : Nat),
    (∀ k, k < n → ∃ x, a[first1 + k]? = some (some x)) →
    (∀ k, k < n → ∃ y, b[first2 + k]? = some (some y)) →
    ∃ r, equal_loop n a first1 b first2 = .ok r := by
  intro n
  induction n with
  | zero => intro a first1 b first2 _ _; exact ⟨true, rfl⟩
  | succ n ih =>
    intro a first1 b first2 ha hb
    obtain ⟨x, hx⟩ := ha 0 (by omega)
    obtain ⟨y, hy⟩ := hb 0 (by omega)
    simp only [Nat.add_zero] at hx hy
    simp only [equal_loop, ArrayPtr.read_value_of_getElem? hx,
      ArrayPtr.read_value_of_getElem? hy]
    by_cases hxy : x = y
    · rw [if_pos hxy]
      apply ih
      · intro k hk
        obtain ⟨z, hz⟩ := ha (k + 1) (by omega)
        exact ⟨z, by rw [← hz]; congr 1; omega⟩
      · intro k hk
        obtain ⟨z, hz⟩ := hb (k + 1) (by omega)
        exact ⟨z, by rw [← hz]; congr 1; omega⟩
    · rw [if_neg hxy]
      exact ⟨false, rfl⟩

theorem lexicographical_compare_loop_spec [LT α] [DecidableRel (fun x y : α => x < y)] :
    ∀ (xs ys : List α) (a : ArrayPtr α) (first1 : Nat) (b : ArrayPtr α) (first2 : Nat),
    (∀ i, i < xs.length → a[first1 + i]? = (xs[i]?).map some) →
    (∀ i, i < ys.length → b[first2 + i]? = (ys[i]?).map some) →
    ∃ r, lexicographical_compare_loop xs.length ys.length a first1 b first2 = .ok r ∧
      (r = true ↔ List.lt xs ys) := by
  intro xs
  induction xs with
  | nil =>
    intro ys a first1 b first2 _ _
    refine ⟨decide (ys.length ≠ 0), rfl, ?_⟩
    cases ys with
    | nil => simp; intro h; cases h
    | cons y ys => simp; exact List.lt.nil y ys
  | cons x xs ih =>
    intro ys a first1 b first2 ha hb
    cases ys with
    | nil =>
      refine ⟨false, rfl, ?_⟩
      simp
      intro h; cases h
    | cons y ys =>
      have hx : a[first1]? = some (some x) := by simpa using ha 0 (by simp)
      have hy : b[first2]? = some (some y) := by simpa using hb 0 (by simp)
      simp only [List.length_cons, lexicographical_compare_loop,
        ArrayPtr.read_value_of_getElem? hx, ArrayPtr.read_value_of_getElem? hy]
      by_cases hxy : x < y
      · rw [if_pos hxy]
        exact ⟨true, rfl, ⟨fun _ => List.lt.head xs ys hxy, fun _ => rfl⟩⟩
      · rw [if_neg hxy]
        by_cases hyx : y < x
        · rw [if_pos hyx]
          refine ⟨false, rfl, ?_⟩
          simp
          intro h
          cases h with
          | head _ _ h1 => exact hxy h1
          | tail _ h2 _ => exact h2 hyx
        · rw [if_neg hyx]
          obtain ⟨r, hr, hiff⟩ := ih ys a (first1 + 1) b (first2 + 1)
            (fun i hi => by
              have := ha (i + 1) (by simp; omega)
              simpa [Nat.add_assoc, Nat.add_comm 1 i] using this)
            (fun i hi => by
              have := hb (i + 1) (by simp; omega)
              simpa [Nat.add_assoc, Nat.add_comm 1 i] using this)
          refine ⟨r, hr, hiff.trans ⟨fun h => List.lt.tail hxy hyx h, fun h => ?_⟩⟩
          cases h with
          | head _ _ h1 => exact absurd h1 hxy
          | tail _ _ h3 => exact h3

theorem ArrayPtr.read_eq_read_iff {a b : ArrayPtr α} {i j : Nat} :
    ArrayPtr.read a i = ArrayPtr.read b j ↔ a[i]? = b[j]? := by
  refine ⟨fun h => ?_, ArrayPtr.read_congr⟩
  unfold ArrayPtr.read at h
  cases ha : a[i]? with
  | none =>
    cases hb : b[j]? with
    | none => rfl
    | some t => simp only [ha, hb] at h; cases h
  | some s =>
    cases hb : b[j]? with
    | none => simp only [ha, hb] at h; cases h
    | some t => simp only [ha, hb] at h; cases h; rfl

theorem subscript_ok_iff {v : SimpleVector α} {i : Nat} {s : Option α} :
    v.subscript i = .ok s ↔ v.items_[i]? = some s :=
  ArrayPtr.read_ok_iff

theorem exists_elements : ∀ (n : Nat) (l : ArrayPtr α),
    (∀ i, i < n → ∃ x, l[i]? = some (some x)) →
    ∃ xs : List α, xs.length = n ∧ ∀ i, i < xs.length → l[i]? = (xs[i]?).map some := by
  intro n
  induction n with
  | zero => intro l _; exact ⟨[], rfl, fun i hi => absurd hi (Nat.not_lt_zero i)⟩
  | succ n ih =>
    intro l h
    obtain ⟨x, hx⟩ := h 0 (by omega)
    cases l with
    | nil => simp at hx
    | cons s t =>
      simp only [List.getElem?_cons_zero, Option.some.injEq] at hx
      subst hx
      obtain ⟨xs, hlen, hget⟩ := ih t (fun i hi => by simpa using h (i + 1) (by omega))
      refine ⟨x :: xs, by simp [hlen], fun i hi => ?_⟩
      cases i with
      | zero => simp
      | succ i => simpa using hget i (by simpa using hi)

theorem Valid.has_elements {v : SimpleVector α} (hv : Valid v) : ∃ xs, HasElements v xs := by
  obtain ⟨xs, hlen, hget⟩ := exists_elements v.size_ v.items_ hv.2.2
  exact ⟨xs, hlen.symm, hget⟩

theorem HasElements.live {v : SimpleVector α} {xs : List α} (h : HasElements v xs) :
    ∀ i, i < v.size_ → ∃ x, v.items_[i]? = some (some x) := by
  intro i hi
  have hi2 : i < xs.length := by rw [← h.1]; exact hi
  exact ⟨xs[i], by rw [h.2 i hi2, List.getElem?_eq_getElem hi2]; rfl⟩

theorem HasElements.getElem? {v : SimpleVector α} {xs : List α} (h : HasElements v xs)
    {i : Nat} (hi : i < xs.length) : v.items_[i]? = some (some xs[i]) := by
  rw [h.2 i hi, List.getElem?_eq_getElem hi]; rfl

theorem op_eq_true_iff [DecidableEq α] (a b : SimpleVector α) :
    op_eq a b = .ok true ↔ a.size_ = b.size_ ∧
      ∀ i, i < a.size_ → ∃ x, a.items_[i]? = some (some x) ∧ b.items_[i]? = some (some x) := by
  by_cases hsize : a.size_ = b.size_
  · have hno : ¬ (a.size_ < 0 ∨ b.size_ < 0) := by omega
    have hne : ¬ (a.size_ - 0 ≠ b.size_ - 0) := by omega
    have hg : a.GetSize = b.GetSize := hsize
    unfold op_eq
    rw [if_pos hg]
    unfold std_equal
    rw [if_neg hno, if_neg hne, Nat.sub_zero, equal_loop_true_iff]
    simp only [Nat.zero_add, hsize, true_and]
  · have hg : ¬ a.GetSize = b.GetSize := hsize
    unfold op_eq
    rw [if_neg hg]
    simp only [hsize, false_and, iff_false]
    intro h
    cases h

theorem op_eq_returns [DecidableEq α] (a b : SimpleVector α)
    (ha : ∀ i, i < a.size_ → ∃ x, a.items_[i]? = some (some x))
    (hb : ∀ i, i < b.size_ → ∃ y, b.items_[i]? = some (some y)) :
    ∃ r, op_eq a b = .ok r := by
  by_cases hsize : a.size_ = b.size_
  · have hno : ¬ (a.size_ < 0 ∨ b.size_ < 0) := by omega
    have hne : ¬ (a.size_ - 0 ≠ b.size_ - 0) := by omega
    have hg : a.GetSize = b.GetSize := hsize
    unfold op_eq
    rw [if_pos hg]
    unfold std_equal
    rw [if_neg hno, if_neg hne, Nat.sub_zero]
    apply equal_loop_returns
    · intro k hk; simpa using ha k hk
    · intro k hk; simpa using hb k (by omega)
  · have hg : ¬ a.GetSize = b.GetSize := hsize
    exact ⟨false, by unfold op_eq; rw [if_neg hg]⟩

theorem op_eq_congr [DecidableEq α] (a b a' b' : SimpleVector α)
    (hsa : a'.size_ = a.size_) (hsb : b'.size_ = b.size_)
    (ha : ∀ i, i < a.size_ → a'.items_[i]? = a.items_[i]?)
    (hb : ∀ i, i < b.size_ → b'.items_[i]? = b.items_[i]?) :
    op_eq a' b' = op_eq a b := by
  simp only [op_eq, SimpleVector.GetSize, hsa, hsb, std_equal]
  by_cases hsize : a.size_ = b.size_
  · have hno : ¬ (a.size_ < 0 ∨ b.size_ < 0) := by omega
    have hne : ¬ (a.size_ - 0 ≠ b.size_ - 0) := by omega
    rw [if_pos hsize, if_pos hsize, if_neg hno, if_neg hno, if_neg hne, if_neg hne,
      Nat.sub_zero]
    apply equal_loop_congr
    · intro k hk; simpa using ha k hk
    · intro k hk; simpa using hb k (by omega)
  · rw [if_neg hsize, if_neg hsize]

theorem op_eq_elements [DecidableEq α] {a b : SimpleVector α} {xs ys : List α}
    (ha : HasElements a xs) (hb : HasElements b ys) :
    ∃ r, op_eq a b = .ok r ∧ (r = true ↔ xs = ys) := by
  obtain ⟨r, hr⟩ := op_eq_returns a b ha.live hb.live
  refine ⟨r, hr, ?_⟩
  have hiff := op_eq_true_iff a b
  rw [hr] at hiff
  constructor
  · intro h
    subst h
    obtain ⟨hsize, hel⟩ := hiff.mp rfl
    have hlen : xs.length = ys.length := by rw [← ha.1, ← hb.1]; exact hsize
    apply List.ext_getElem hlen
    intro i h1 h2
    obtain ⟨x, hx1, hx2⟩ := hel i (by rw [ha.1]; exact h1)
    rw [ha.getElem? h1] at hx1
    rw [hb.getElem? h2] at hx2
    simp only [Option.some.injEq] at hx1 hx2
    rw [hx1, hx2]
  · intro h
    subst h
    have : (Except.ok r : Result Bool) = Except.ok true := by
      apply hiff.mpr
      refine ⟨by rw [ha.1, hb.1], fun i hi => ?_⟩
      have hi2 : i < xs.length := by rw [← ha.1]; exact hi
      exact ⟨xs[i], ha.getElem? hi2, hb.getElem? hi2⟩
    exact Except.ok.inj this

theorem op_lt_elements [LT α] [DecidableRel (fun x y : α => x < y)] {a b : SimpleVector α}
    {xs ys : List α} (ha : HasElements a xs) (hb : HasElements b ys) :
    ∃ r, op_lt a b = .ok r ∧ (r = true ↔ List.lt xs ys) := by
  have hno : ¬ (a.size_ < 0 ∨ b.size_ < 0) := by omega
  simp only [op_lt, std_lexicographical_compare, hno, if_false, Nat.sub_zero, ha.1, hb.1]
  apply lexicographical_compare_loop_spec
  · intro i hi; simpa using ha.2 i hi
  · intro i hi; simpa using hb.2 i hi

theorem lt_proper_prefix [LT α] (hirr : ∀ x : α, ¬ x < x) (y : α) (zs : List α) :
    ∀ xs : List α, List.lt xs (xs ++ y :: zs) ∧ ¬ List.lt (xs ++ y :: zs) xs := by
  intro xs
  induction xs with
  | nil => exact ⟨List.lt.nil y zs, fun h => by cases h⟩
  | cons x xs ih =>
    refine ⟨List.lt.tail (hirr x) (hirr x) ih.1, fun h => ?_⟩
    cases h with
    | head _ _ h1 => exact hirr x h1
    | tail _ _ h3 => exact ih.2 h3

theorem lt_trichotomy_list [LinearOrder α] : ∀ xs ys : List α,
    (List.lt xs ys ∧ xs ≠ ys ∧ ¬ List.lt ys xs) ∨ (¬ List.lt xs ys ∧ xs = ys ∧ ¬ List.lt ys xs) ∨
      (¬ List.lt xs ys ∧ xs ≠ ys ∧ List.lt ys xs) := by
  intro xs
  induction xs with
  | nil =>
    intro ys
    cases ys with
    | nil => exact Or.inr (Or.inl ⟨(fun h => by cases h), rfl, (fun h => by cases h)⟩)
    | cons y ys => exact Or.inl ⟨List.lt.nil y ys, (by simp), (fun h => by cases h)⟩
  | cons x xs ih =>
    intro ys
    cases ys with
    | nil => exact Or.inr (Or.inr ⟨(fun h => by cases h), (by simp), List.lt.nil x xs⟩)
    | cons y ys =>
      rcases lt_trichotomy x y with hxy | hxy | hxy
      · refine Or.inl ⟨List.lt.head xs ys hxy, fun h => ?_, fun h => ?_⟩
        · cases h; exact lt_irrefl x hxy
        · cases h with
          | head _ _ h1 => exact lt_asymm hxy h1
          | tail _ h1 _ => exact h1 hxy
      · subst hxy
        rcases ih ys with ⟨h1, h2, h3⟩ | ⟨h1, h2, h3⟩ | ⟨h1, h2, h3⟩
        · refine Or.inl ⟨List.lt.tail (lt_irrefl x) (lt_irrefl x) h1, fun h => ?_, fun h => ?_⟩
          · cases h; exact h2 rfl
          · cases h with
            | head _ _ h4 => exact lt_irrefl x h4
            | tail _ _ h4 => exact h3 h4
        · refine Or.inr (Or.inl ⟨fun h => ?_, (by rw [h2]), fun h => ?_⟩)
          · cases h with
            | head _ _ h4 => exact lt_irrefl x h4
            | tail _ _ h4 => exact h1 h4
          · cases h with
            | head _ _ h4 => exact lt_irrefl x h4
            | tail _ _ h4 => exact h3 h4
        · refine Or.inr (Or.inr ⟨fun h => ?_, fun h => ?_,
            List.lt.tail (lt_irrefl x) (lt_irrefl x) h3⟩)
          · cases h with
            | head _ _ h4 => exact lt_irrefl x h4
            | tail _ _ h4 => exact h1 h4
          · cases h; exact h2 rfl
      · refine Or.inr (Or.inr ⟨fun h => ?_, fun h => ?_, List.lt.head ys xs hxy⟩)
        · cases h with
          | head _ _ h1 => exact lt_asymm hxy h1
          | tail _ h1 _ => exact h1 hxy
        · cases h; exact lt_irrefl x hxy

/-! ### Insert at the end, and the capacity after each call -/

theorem std_copy_ok_le {src dst r : ArrayPtr α} {last : Nat}
    (h : std_copy src 0 last dst 0 = .ok r) : last ≤ dst.length := by
  by_contra hlt
  have hov := copy_loop_overflow src (last - 0) 0 dst 0 (by omega) (by omega)
  simp only [std_copy, Nat.not_lt_zero, if_false] at h
  rw [hov] at h
  cases h

theorem Insert_move_end_eq_PushBack_move (v : SimpleVector α) (x : α)
    (hsize : v.size_ ≤ v.capacity_) (hsmall : v.size_ < 2 ^ 30) :
    (v.Insert_move v.size_ (.object x)).map Prod.fst = v.PushBack_move x := by
  have hassert : ¬ ¬ v.size_ ≤ v.size_ := by omega
  by_cases hcap : v.size_ < v.capacity_
  · simp only [SimpleVector.Insert_move, SimpleVector.PushBack_move, if_neg hassert,
      if_pos hcap, if_true, ValueRef.move_assign_within_object]
    cases ArrayPtr.write v.items_ v.size_ (some x) <;> rfl
  · have hfull : v.size_ = v.capacity_ := by omega
    have hns : (if v.capacity_ = 0 then 1 else 2 * v.capacity_) = max 1 (2 * v.size_) := by
      split_ifs <;> omega
    have hnot : ¬ v.size_ < v.size_ := by omega
    simp only [SimpleVector.Insert_move, SimpleVector.PushBack_move, if_neg hassert,
      if_neg hcap, push_back_new_size_small hsmall, hns, ValueRef.move_assign_object]
    cases h1 : std_move v.items_ 0 v.size_ (ArrayPtr.alloc (max 1 (2 * v.size_))) 0 with
    | error e => rfl
    | ok r1 =>
      obtain ⟨o1, n1⟩ := r1
      dsimp only
      cases h2 : ArrayPtr.write n1 v.size_ (some x) with
      | error e => rfl
      | ok n2 =>
        simp only [std_move, if_neg hnot, Nat.sub_self, move_loop, ArrayPtr.swap]
        rfl

theorem Resize_capacity_le [Inhabited α] {v r : SimpleVector α} {n : Nat}
    (h : v.Resize n = .ok r) : v.capacity_ ≤ r.capacity_ := by
  unfold SimpleVector.Resize at h
  repeat' (first | split at h | dsimp only at h)
  all_goals first
    | (cases h; done)
    | (cases h; first | omega | (dsimp only; omega))

theorem Reserve_capacity_le {v r : SimpleVector α} {n : Nat}
    (h : v.Reserve n = .ok r) : v.capacity_ ≤ r.capacity_ := by
  unfold SimpleVector.Reserve at h
  repeat' (first | split at h | dsimp only at h)
  all_goals first
    | (cases h; done)
    | (cases h; first | omega | (dsimp only; omega))

theorem PushBack_capacity_le {v r : SimpleVector α} {x : α} (hsize : v.size_ ≤ v.capacity_)
    (h : v.PushBack x = .ok r) : v.capacity_ ≤ r.capacity_ := by
  unfold SimpleVector.PushBack at h
  repeat' (first | split at h | dsimp only at h)
  all_goals first
    | (cases h; done)
    | (cases h
       have hle := std_copy_ok_le (by assumption)
       rw [ArrayPtr.length_alloc] at hle
       dsimp only
       omega)
    | (cases h; first | omega | (dsimp only; omega))

theorem PushBack_move_capacity_le {v r : SimpleVector α} {x : α}
    (hsize : v.size_ ≤ v.capacity_) (h : v.PushBack_move x = .ok r) :
    v.capacity_ ≤ r.capacity_ := by
  unfold SimpleVector.PushBack_move at h
  repeat' (first | split at h | dsimp only at h)
  all_goals first
    | (cases h; done)
    | (cases h
       have hle := std_move_ok_le (by assumption)
       rw [ArrayPtr.length_alloc] at hle
       dsimp only
       omega)
    | (cases h; first | omega | (dsimp only; omega))

theorem Insert_capacity_le {v r : SimpleVector α} {p it : Nat} {x : ValueRef α}
    (h : v.Insert p x = .ok (r, it)) : v.capacity_ ≤ r.capacity_ := by
  unfold SimpleVector.Insert at h
  repeat' (first | split at h | dsimp only at h)
  all_goals first
    | (cases h; done)
    | (cases h; first | omega | (dsimp only; omega))

theorem Insert_move_capacity_le {v r : SimpleVector α} {p it : Nat} {x : ValueRef α}
    (h : v.Insert_move p x = .ok (r, it)) : v.capacity_ ≤ r.capacity_ := by
  unfold SimpleVector.Insert_move at h
  repeat' (first | split at h | dsimp only at h)
  all_goals first
    | (cases h; done)
    | (cases h; first | omega | (dsimp only; omega))

theorem Erase_capacity_eq {v r : SimpleVector α} {p it : Nat}
    (h : v.Erase p = .ok (r, it)) : r.capacity_ = v.capacity_ := by
  unfold SimpleVector.Erase at h
  repeat' (first | split at h | dsimp only at h)
  all_goals first
    | (cases h; done)
    | (cases h; rfl)

theorem Resize_shrink_ok [Inhabited α] (v : SimpleVector α) (n : Nat)
    (hsize : v.size_ ≤ v.capacity_) (hn : n ≤ v.size_) :
    ∃ r, v.Resize n = .ok r ∧ r.capacity_ = v.capacity_ ∧ r.size_ = n ∧
      r.items_ = v.items_ := by
  have h1 : ¬ n > v.capacity_ := by omega
  have h2 : ¬ (n > v.size_ ∧ n < v.capacity_) := by omega
  by_cases h3 : n < v.size_
  · exact ⟨{ v with size_ := n }, by simp only [SimpleVector.Resize, if_neg h1, if_neg h2,
      if_pos h3], rfl, rfl, rfl⟩
  · exact ⟨v, by simp only [SimpleVector.Resize, if_neg h1, if_neg h2, if_neg h3], rfl,
      by omega, rfl⟩

end Lemmas

/-! ## The claims -/

section Claims

/-- C1. The claim is that `PushBack(const Type&)` called once per element of `xs` on an empty
container gives size `length xs` and the elements of `xs` in order.  At `xs = [1, 2, 3]` the
first call already writes `item` through the old storage, which has no slot: the growth branch
assigns `new_vec[size_]` after `items_.swap(new_vec)`.  The move overload, which assigns
before the swap, gives `1, 2, 3`. -/
theorem PushBack_copy_writes_old_storage :
    SimpleVector.PushBack_each (SimpleVector.ctor_default : SimpleVector Nat) [1, 2, 3]
        = .error .undefined_behaviour ∧
      SimpleVector.PushBack (SimpleVector.ctor_default : SimpleVector Nat) 1
        = .error .undefined_behaviour ∧
      SimpleVector.PushBack ⟨[some 1], 1, 1⟩ 2 = .error .undefined_behaviour ∧
      SimpleVector.PushBack_move_each (SimpleVector.ctor_default : SimpleVector Nat) [1, 2, 3]
        = .ok ⟨[some 1, some 2, some 3, none], 3, 4⟩ := by
  refine ⟨rfl, rfl, rfl, rfl⟩

/-- C2. The claim is that `Insert(begin() + p, x)` leaves `x` at index `p`.  Both overloads
take `value` by reference and store it after the elements from `p` on have been shifted
(`std::copy_backward`, `std::move_backward`).  For the container `1, 2, 3` of capacity 4
(built by the initializer list and `Reserve(4)`), `v.Insert(v.begin(), v[2])` passes the
value 3 and returns the container `2, 1, 2, 3`: index 0 holds 2.  The move overload called
with `std::move(v[2])` stores 2 as well and leaves the element it read moved from.  The same
value passed in an object outside the storage gives `3, 1, 2, 3`, and so does the branch of
`Insert` that reallocates, called with `v[2]` on the full container `1, 2, 3`: it stores
`value` before the old storage changes. -/
theorem Insert_reads_value_after_shift :
    SimpleVector.ctor_init [1, 2, 3] = .ok (⟨[some 1, some 2, some 3], 3, 3⟩ : SimpleVector Nat) ∧
    (⟨[some 1, some 2, some 3], 3, 3⟩ : SimpleVector Nat).Reserve 4
      = .ok ⟨[some 1, some 2, some 3, none], 3, 4⟩ ∧
    (⟨[some 1, some 2, some 3, none], 3, 4⟩ : SimpleVector Nat).subscript 2 = .ok (some 3) ∧
    (⟨[some 1, some 2, some 3, none], 3, 4⟩ : SimpleVector Nat).Insert 0 (.element 2)
      = .ok (⟨[some 2, some 1, some 2, some 3], 4, 4⟩, 0) ∧
    (⟨[some 2, some 1, some 2, some 3], 4, 4⟩ : SimpleVector Nat).subscript 0 = .ok (some 2) ∧
    (⟨[some 1, some 2, some 3, none], 3, 4⟩ : SimpleVector Nat).Insert_move 0 (.element 2)
      = .ok (⟨[some 2, some 1, none, some 3], 4, 4⟩, 0) ∧
    (⟨[some 1, some 2, some 3, none], 3, 4⟩ : SimpleVector Nat).Insert 0 (.object 3)
      = .ok (⟨[some 3, some 1, some 2, some 3], 4, 4⟩, 0) ∧
    (⟨[some 1, some 2, some 3], 3, 3⟩ : SimpleVector Nat).Insert 0 (.element 2)
      = .ok (⟨[some 3, some 1, some 2, some 3, none, none], 4, 6⟩, 0) := by
  refine ⟨rfl, rfl, rfl, rfl, rfl, rfl, rfl, rfl⟩

/-- C3. For a container whose `size_` elements lie in its storage (as they do in every
reachable state, `Reachable.valid`) and a position `p < size_`, `Erase` returns: the size shrinks by one, the capacity is unchanged, the elements
before `p` are unchanged, the elements after `p` are one index nearer, and the returned
iterator is at the same offset `p`. -/
theorem Erase_spec {α : Type} (v : SimpleVector α) (p : Nat)
    (hvalid : v.GetSize ≤ v.items_.length) (hp : p < v.GetSize) :
    ∃ r, v.Erase p = .ok (r, p) ∧ r.GetSize = v.GetSize - 1 ∧
      r.GetCapacity = v.GetCapacity ∧
      (∀ i, i < p → r.subscript i = v.subscript i) ∧
      (∀ i, p ≤ i → i < v.GetSize - 1 → r.subscript i = v.subscript (i + 1)) := by
  obtain ⟨r, h, hs, hc, _, hlo, hhi⟩ := Erase_ok v p hvalid hp
  exact ⟨r, h, hs, hc, fun i hi => ArrayPtr.read_congr (hlo i hi),
    fun i h1 h2 => ArrayPtr.read_congr (hhi i h1 h2)⟩

/-- C3, at the container `1, 9, 2, 3` and at position 2. -/
theorem Erase_spec_witness :
    ((⟨[some 1, some 9, some 2, some 3], 4, 4⟩ : SimpleVector Nat).GetSize
        ≤ (⟨[some 1, some 9, some 2, some 3], 4, 4⟩ : SimpleVector Nat).items_.length ∧
      2 < (⟨[some 1, some 9, some 2, some 3], 4, 4⟩ : SimpleVector Nat).GetSize) ∧
    ∃ r, (⟨[some 1, some 9, some 2, some 3], 4, 4⟩ : SimpleVector Nat).Erase 2 = .ok (r, 2) ∧
      r.GetSize = (⟨[some 1, some 9, some 2, some 3], 4, 4⟩ : SimpleVector Nat).GetSize - 1 ∧
      r.GetCapacity = (⟨[some 1, some 9, some 2, some 3], 4, 4⟩ : SimpleVector Nat).GetCapacity ∧
      (∀ i, i < 2 → r.subscript i
        = (⟨[some 1, some 9, some 2, some 3], 4, 4⟩ : SimpleVector Nat).subscript i) ∧
      (∀ i, 2 ≤ i → i < (⟨[some 1, some 9, some 2, some 3], 4, 4⟩ : SimpleVector Nat).GetSize - 1 →
        r.subscript i
          = (⟨[some 1, some 9, some 2, some 3], 4, 4⟩ : SimpleVector Nat).subscript (i + 1)) :=
  ⟨⟨by decide, by decide⟩,
    Erase_spec ⟨[some 1, some 9, some 2, some 3], 4, 4⟩ 2 (by decide) (by decide)⟩

/-- C4. Both forms of `At` throw `std::out_of_range` exactly when `index ≥ GetSize()`;
below `GetSize()` they give what `operator[]` gives and leave the container as it was, and
they return when the elements lie in the storage.  `At(GetSize())` throws, and
`At(GetSize() - 1)` of a non-empty container does not. -/
theorem At_spec {α : Type} (v : SimpleVector α) (i : Nat) :
    (v.At i = .error .out_of_range ↔ i ≥ v.GetSize) ∧
    (v.At_const i = .error .out_of_range ↔ i ≥ v.GetSize) ∧
    (i < v.GetSize → v.At i = (v.subscript i).map (fun s => (s, v)) ∧
      v.At_const i = v.subscript i) ∧
    (i < v.GetSize → v.GetSize ≤ v.items_.length →
      ∃ s, v.At i = .ok (s, v) ∧ v.At_const i = .ok s ∧ v.subscript i = .ok s) ∧
    v.At v.GetSize = .error .out_of_range ∧
    v.At_const v.GetSize = .error .out_of_range ∧
    (v.GetSize ≠ 0 → v.At (v.GetSize - 1) ≠ .error .out_of_range ∧
      v.At_const (v.GetSize - 1) ≠ .error .out_of_range) := by
  have hthrow : ∀ j, j ≥ v.size_ →
      v.At j = .error .out_of_range ∧ v.At_const j = .error .out_of_range := by
    intro j hj
    simp [SimpleVector.At, SimpleVector.At_const, hj]
  have hnothrow : ∀ j, j < v.size_ →
      v.At j ≠ .error .out_of_range ∧ v.At_const j ≠ .error .out_of_range := by
    intro j hj
    obtain ⟨h1, h2⟩ := At_eq v j hj
    rw [h1, h2]
    refine ⟨fun h => ?_, subscript_ne_out_of_range v j⟩
    cases hs : v.subscript j with
    | error e =>
      rw [hs] at h
      exact subscript_ne_out_of_range v j (hs.trans (by cases h; rfl))
    | ok s => rw [hs] at h; cases h
  refine ⟨⟨fun h => ?_, fun h => (hthrow i h).1⟩, ⟨fun h => ?_, fun h => (hthrow i h).2⟩,
    At_eq v i, fun h1 h2 => ?_, (hthrow _ (Nat.le_refl _)).1, (hthrow _ (Nat.le_refl _)).2,
    fun h => hnothrow _ ?_⟩
  · by_contra hlt
    exact (hnothrow i (by simp only [SimpleVector.GetSize] at hlt; omega)).1 h
  · by_contra hlt
    exact (hnothrow i (by simp only [SimpleVector.GetSize] at hlt; omega)).2 h
  · have hi : i < v.items_.length := by simp only [SimpleVector.GetSize] at h1 h2; omega
    obtain ⟨e1, e2⟩ := At_eq v i h1
    have hsub : v.subscript i = .ok v.items_[i] := ArrayPtr.read_eq_ok hi
    refine ⟨v.items_[i], ?_, ?_, hsub⟩
    · rw [e1, hsub]; rfl
    · rw [e2, hsub]
  · simp only [SimpleVector.GetSize] at h ⊢; omega

/-- C4, at the container `1, 9, 3` of capacity 4 and at index 2, its last element. -/
theorem At_spec_witness :
    (2 < (⟨[some 1, some 9, some 3, none], 3, 4⟩ : SimpleVector Nat).GetSize ∧
      (⟨[some 1, some 9, some 3, none], 3, 4⟩ : SimpleVector Nat).GetSize
        ≤ (⟨[some 1, some 9, some 3, none], 3, 4⟩ : SimpleVector Nat).items_.length ∧
      (⟨[some 1, some 9, some 3, none], 3, 4⟩ : SimpleVector Nat).GetSize ≠ 0) ∧
    (∃ s, (⟨[some 1, some 9, some 3, none], 3, 4⟩ : SimpleVector Nat).At 2
        = .ok (s, ⟨[some 1, some 9, some 3, none], 3, 4⟩) ∧
      (⟨[some 1, some 9, some 3, none], 3, 4⟩ : SimpleVector Nat).At_const 2 = .ok s ∧
      (⟨[some 1, some 9, some 3, none], 3, 4⟩ : SimpleVector Nat).subscript 2 = .ok s) ∧
    ((⟨[some 1, some 9, some 3, none], 3, 4⟩ : SimpleVector Nat).At
        ((⟨[some 1, some 9, some 3, none], 3, 4⟩ : SimpleVector Nat).GetSize - 1)
        ≠ .error .out_of_range ∧
      (⟨[some 1, some 9, some 3, none], 3, 4⟩ : SimpleVector Nat).At_const
        ((⟨[some 1, some 9, some 3, none], 3, 4⟩ : SimpleVector Nat).GetSize - 1)
        ≠ .error .out_of_range) :=
  ⟨⟨by decide, by decide, by decide⟩,
    (At_spec ⟨[some 1, some 9, some 3, none], 3, 4⟩ 2).2.2.2.1 (by decide) (by decide),
    (At_spec ⟨[some 1, some 9, some 3, none], 3, 4⟩ 2).2.2.2.2.2.2 (by decide)⟩

/-- C5. Every container state that a constructor and a finite sequence of returning calls of
the public mutators (`Reserve`, `Clear`, `Resize`, both `PushBack`, `PopBack`, both `Insert`,
`Erase`, `swap`, copy and move assignment) can produce has `GetSize() ≤ GetCapacity()`. -/
theorem Reachable_size_le_capacity {α : Type} [DecidableEq α] [Inhabited α]
    (v : SimpleVector α) (h : Reachable v) : v.GetSize ≤ v.GetCapacity := by
  have hv : Valid v := Reachable.valid h
  exact hv.1

/-- C5, at the container reached by the initializer list `1, 2`, `Resize(3)`, `PopBack()`
and `Reserve(9)`. -/
theorem Reachable_size_le_capacity_witness :
    Reachable (⟨[some 1, some 2, none, none, none, none, none, none, none], 2, 9⟩ :
        SimpleVector Nat) ∧
      (⟨[some 1, some 2, none, none, none, none, none, none, none], 2, 9⟩ :
        SimpleVector Nat).GetSize
        ≤ (⟨[some 1, some 2, none, none, none, none, none, none, none], 2, 9⟩ :
          SimpleVector Nat).GetCapacity :=
  have h1 : Reachable (⟨[some 1, some 2], 2, 2⟩ : SimpleVector Nat) :=
    Reachable.ctor_init [1, 2] _ rfl
  have h2 : Reachable (⟨[some 1, some 2, some 0], 3, 4⟩ : SimpleVector Nat) :=
    Reachable.Resize _ _ 3 h1 rfl
  have h3 : Reachable (⟨[some 1, some 2, some 0], 2, 4⟩ : SimpleVector Nat) :=
    Reachable.PopBack _ h2
  have h4 : Reachable (⟨[some 1, some 2, none, none, none, none, none, none, none], 2, 9⟩ :
      SimpleVector Nat) := Reachable.Reserve _ _ 9 h3 rfl
  ⟨h4, Reachable_size_le_capacity _ h4⟩

/-- C6. The claim is that the move overload `PushBack(Type&&)` appends `x` to every container
whose buffer has exactly `capacity_` slots.  For the full container of `2^30` elements the
product `static_cast<int>(size_) * 2` overflows `int`, so the call has no defined result; up to
`2^30 - 1` elements the claim holds (`PushBack_move_ok`). -/
theorem PushBack_move_int_overflow :
    (⟨List.replicate (2 ^ 30) (some 0), 2 ^ 30, 2 ^ 30⟩ : SimpleVector Nat).items_.length
        = (⟨List.replicate (2 ^ 30) (some 0), 2 ^ 30, 2 ^ 30⟩ : SimpleVector Nat).GetCapacity ∧
      (⟨List.replicate (2 ^ 30) (some 0), 2 ^ 30, 2 ^ 30⟩ : SimpleVector Nat).GetSize
        ≤ (⟨List.replicate (2 ^ 30) (some 0), 2 ^ 30, 2 ^ 30⟩ : SimpleVector Nat).GetCapacity ∧
      (⟨List.replicate (2 ^ 30) (some 0), 2 ^ 30, 2 ^ 30⟩ : SimpleVector Nat).PushBack_move 7
        = .error .undefined_behaviour := by
  refine ⟨?_, Nat.le_refl _, ?_⟩
  · simp only [SimpleVector.GetCapacity, List.length_replicate]
  · exact PushBack_move_new_size_error _ 7 _ (Nat.lt_irrefl _) rfl

/-- C7. The claim is that `PushBack` on a full container of capacity `C` gives capacity `2C`
(1 when `C = 0`) for every `C` of `size_t`.  The code computes
`std::max(1, static_cast<int>(size_) * 2)`: for `C = 2^32` the conversion gives 0 and the new
buffer has 1 slot, into which `2^32` elements are then transferred; for `C = 2^30` the product
overflows `int`.  For `C < 2^30` the value is `max 1 (2 * C)`. -/
theorem PushBack_growth_through_int :
    2 ^ 32 ≤ SIZE_MAX ∧ push_back_new_size (2 ^ 32) = .ok 1 ∧
      (⟨List.replicate (2 ^ 32) (some 0), 2 ^ 32, 2 ^ 32⟩ : SimpleVector Nat).PushBack_move 7
        = .error .undefined_behaviour ∧
      (⟨List.replicate (2 ^ 32) (some 0), 2 ^ 32, 2 ^ 32⟩ : SimpleVector Nat).PushBack 7
        = .error .undefined_behaviour ∧
      push_back_new_size (2 ^ 30) = .error .undefined_behaviour ∧
      push_back_new_size (2 ^ 30 - 1) = .ok (2 * (2 ^ 30 - 1)) ∧
      push_back_new_size 0 = .ok 1 := by
  have h : push_back_new_size (2 ^ 32) = .ok 1 := rfl
  refine ⟨by decide, h, ?_, ?_, rfl, rfl, rfl⟩
  · exact PushBack_move_overflow _ 7 1 (Nat.lt_irrefl _) h (by decide)
  · exact PushBack_overflow _ 7 1 (Nat.lt_irrefl _) h (by decide)

/-- C8. The claim is that `Resize(n)` with `size < n ≤ capacity` gives size `n`.  For the
container `1` of capacity 2 (the initializer list `1`, then `Reserve(2)`) the call
`Resize(2)` changes nothing: the branch is guarded by `new_size < capacity_`, and no branch
takes `new_size == capacity_`.  `Resize(2)` at capacity 3 does give size 2.  (On a container
built from the reservation hint, which has a capacity and no storage, the in-capacity branch
writes outside the storage.) -/
theorem Resize_to_capacity_does_nothing :
    SimpleVector.ctor_init [1] = .ok (⟨[some 1], 1, 1⟩ : SimpleVector Nat) ∧
      (⟨[some 1], 1, 1⟩ : SimpleVector Nat).Reserve 2 = .ok ⟨[some 1, none], 1, 2⟩ ∧
      (⟨[some 1, none], 1, 2⟩ : SimpleVector Nat).Resize 2 = .ok ⟨[some 1, none], 1, 2⟩ ∧
      (⟨[some 1, none, none], 1, 3⟩ : SimpleVector Nat).Resize 2
        = .ok ⟨[some 1, some 0, none], 2, 3⟩ ∧
      (SimpleVector.ctor_reserve (Reserve 5) : SimpleVector Nat).Resize 3
        = .error .undefined_behaviour := by
  refine ⟨rfl, rfl, rfl, rfl, rfl⟩

/-- C9. The claim is that `Resize(n)` with `n > capacity` allocates
`max(n, 2 * oldCapacity)` slots.  For the container `1, 2` (capacity 2) the call `Resize(3)`
allocates `ArrayPtr<Type> new_vec(new_size)`, 3 slots, and sets `capacity_` to 4; the next
`PushBack` then writes its value outside the storage. -/
theorem Resize_growth_allocates_new_size :
    (⟨[some 1, some 2], 2, 2⟩ : SimpleVector Nat).Resize 3
        = .ok ⟨[some 1, some 2, some 0], 3, 4⟩ ∧
      (⟨[some 1, some 2, some 0], 3, 4⟩ : SimpleVector Nat).items_.length = 3 ∧
      (⟨[some 1, some 2, some 0], 3, 4⟩ : SimpleVector Nat).GetCapacity = 4 ∧
      (⟨[some 1, some 2, some 0], 3, 4⟩ : SimpleVector Nat).PushBack_move 5
        = .error .undefined_behaviour ∧
      (⟨[some 1, some 2, some 0], 3, 4⟩ : SimpleVector Nat).PushBack 5
        = .error .undefined_behaviour := by
  refine ⟨rfl, rfl, rfl, rfl, rfl⟩

/-- C10. The claim is that after `v2 = v1` a mutation of `v2` leaves `v1` unchanged.  The
copy assignment builds `v2` with the copy constructor, which allocates `v1.GetSize()` slots
and records `v1.GetCapacity()`.  For `v1` holding `1, 2` with capacity 4 (built by the
initializer list and `Reserve(4)`) and `v2` holding `5`, the assignment returns, `v1 == v2`
is true and `v2` has the elements of `v1`, but `v2` reports capacity 4 over a buffer of
2 slots.  The next `PushBack`, `Insert` at the end or `Resize(3)` on `v2` takes the branch
that does not reallocate and writes slot 2 of that buffer: the write lands outside the
storage of `v2`, in memory that `v2` does not own. -/
theorem assign_copy_then_mutation_overflows :
    SimpleVector.ctor_init [1, 2] = .ok (⟨[some 1, some 2], 2, 2⟩ : SimpleVector Nat) ∧
    (⟨[some 1, some 2], 2, 2⟩ : SimpleVector Nat).Reserve 4
      = .ok ⟨[some 1, some 2, none, none], 2, 4⟩ ∧
    SimpleVector.assign_copy (⟨[some 5], 1, 1⟩ : SimpleVector Nat)
      ⟨[some 1, some 2, none, none], 2, 4⟩ false = .ok ⟨[some 1, some 2], 2, 4⟩ ∧
    op_eq (⟨[some 1, some 2, none, none], 2, 4⟩ : SimpleVector Nat) ⟨[some 1, some 2], 2, 4⟩
      = .ok true ∧
    (⟨[some 1, some 2], 2, 4⟩ : SimpleVector Nat).GetCapacity = 4 ∧
    (⟨[some 1, some 2], 2, 4⟩ : SimpleVector Nat).items_.length = 2 ∧
    (⟨[some 1, some 2], 2, 4⟩ : SimpleVector Nat).PushBack 73 = .error .undefined_behaviour ∧
    (⟨[some 1, some 2], 2, 4⟩ : SimpleVector Nat).PushBack_move 73
      = .error .undefined_behaviour ∧
    (⟨[some 1, some 2], 2, 4⟩ : SimpleVector Nat).Insert 2 (.object 73)
      = .error .undefined_behaviour ∧
    (⟨[some 1, some 2], 2, 4⟩ : SimpleVector Nat).Insert_move 2 (.object 73)
      = .error .undefined_behaviour ∧
    (⟨[some 1, some 2], 2, 4⟩ : SimpleVector Nat).Resize 3 = .error .undefined_behaviour := by
  refine ⟨rfl, rfl, rfl, rfl, rfl, rfl, rfl, rfl, rfl, rfl, rfl⟩

/-- C11. The claim is that the copy-constructed container has `GetCapacity()` equal to
`other.GetSize()` and as many slots.  For the container `1` of capacity 3 the copy has
1 slot and reports capacity 3: the initializer list is
`items_(other.GetSize()), size_(other.GetSize()), capacity_(other.GetCapacity())`.  The next
`PushBack` on the copy writes outside its storage.  Size and elements are those of
`other`. -/
theorem ctor_copy_inherits_capacity :
    SimpleVector.ctor_copy (⟨[some 1, none, none], 1, 3⟩ : SimpleVector Nat)
        = .ok ⟨[some 1], 1, 3⟩ ∧
      (⟨[some 1], 1, 3⟩ : SimpleVector Nat).GetCapacity = 3 ∧
      (⟨[some 1, none, none], 1, 3⟩ : SimpleVector Nat).GetSize = 1 ∧
      (⟨[some 1], 1, 3⟩ : SimpleVector Nat).items_.length = 1 ∧
      (⟨[some 1], 1, 3⟩ : SimpleVector Nat).PushBack_move 2 = .error .undefined_behaviour := by
  refine ⟨rfl, rfl, rfl, rfl, rfl⟩

/-- C12. The claim is that after `v2 = std::move(v1)` on distinct objects, whatever their
contents, `v1` has size 0 and capacity 0.  The guard of the move assignment is
`*this != rhs`, a comparison of the contents: for `v2` and `v1` both holding `1, 2` nothing is
moved and `v1` keeps size 2 and capacity 2; for an empty `v2` and an empty `v1` of capacity 5,
`v1` keeps capacity 5.  When the contents differ the source is left empty and `v2` has its
elements. -/
theorem assign_move_compares_contents :
    SimpleVector.assign_move (⟨[some 1, some 2], 2, 2⟩ : SimpleVector Nat)
        ⟨[some 1, some 2], 2, 2⟩
        = .ok (⟨[some 1, some 2], 2, 2⟩, ⟨[some 1, some 2], 2, 2⟩) ∧
      (⟨[some 1, some 2], 2, 2⟩ : SimpleVector Nat).GetSize = 2 ∧
      SimpleVector.assign_move (⟨[], 0, 0⟩ : SimpleVector Nat) ⟨[], 0, 5⟩
        = .ok (⟨[], 0, 0⟩, ⟨[], 0, 5⟩) ∧
      SimpleVector.assign_move (⟨[some 5], 1, 1⟩ : SimpleVector Nat) ⟨[some 1, some 2], 2, 2⟩
        = .ok (⟨[some 1, some 2], 2, 2⟩, ⟨[], 0, 0⟩) := by
  refine ⟨rfl, rfl, rfl, rfl⟩

/-- C13. The claim is that the container built from the hint `Reserve(h)` owns `h` slots, so
that the next `k ≤ h` calls of `PushBack` stay inside the storage.  For `h = 3` the constructor
sets `capacity_` to 3 and allocates nothing: the storage has 0 slots and the first `PushBack`
(either overload) writes outside it.  The member function `Reserve(3)` on an empty container
does allocate 3 slots, and three values are then appended without a change of capacity. -/
theorem ctor_reserve_allocates_nothing :
    (SimpleVector.ctor_reserve (Reserve 3) : SimpleVector Nat) = ⟨[], 0, 3⟩ ∧
      (SimpleVector.ctor_reserve (Reserve 3) : SimpleVector Nat).GetCapacity = 3 ∧
      (SimpleVector.ctor_reserve (Reserve 3) : SimpleVector Nat).items_.length = 0 ∧
      SimpleVector.PushBack_move_each (SimpleVector.ctor_reserve (Reserve 3) : SimpleVector Nat)
        [1] = .error .undefined_behaviour ∧
      SimpleVector.PushBack_each (SimpleVector.ctor_reserve (Reserve 3) : SimpleVector Nat)
        [1] = .error .undefined_behaviour ∧
      (SimpleVector.ctor_default : SimpleVector Nat).Reserve 3
        = .ok ⟨[none, none, none], 0, 3⟩ ∧
      SimpleVector.PushBack_move_each (⟨[none, none, none], 0, 3⟩ : SimpleVector Nat) [1, 2, 3]
        = .ok ⟨[some 1, some 2, some 3], 3, 3⟩ := by
  refine ⟨rfl, rfl, rfl, rfl, rfl, rfl, rfl⟩

/-- C14. `a == b` is true exactly when the sizes are equal and, at every index below the
size, both containers hold the same value; when the elements of both are values the operator
returns and `a != b` is its negation; the result is the same for any two containers with the
same sizes and the same slots below the sizes (whatever their capacities and their other
slots).  Two containers built from the list `1, 2` compare `==` true and `<` false. -/
theorem op_eq_spec {α : Type} [DecidableEq α] (a b : SimpleVector α) :
    (op_eq a b = .ok true ↔ a.GetSize = b.GetSize ∧
      ∀ i, i < a.GetSize → ∃ x, a.subscript i = .ok (some x) ∧ b.subscript i = .ok (some x)) ∧
    ((∀ i, i < a.GetSize → ∃ x, a.subscript i = .ok (some x)) →
      (∀ i, i < b.GetSize → ∃ y, b.subscript i = .ok (some y)) →
      ∃ r, op_eq a b = .ok r ∧ op_ne a b = .ok (!r)) ∧
    (∀ a' b' : SimpleVector α, a'.GetSize = a.GetSize → b'.GetSize = b.GetSize →
      (∀ i, i < a.GetSize → a'.subscript i = a.subscript i) →
      (∀ i, i < b.GetSize → b'.subscript i = b.subscript i) →
      op_eq a' b' = op_eq a b ∧ op_ne a' b' = op_ne a b) ∧
    op_ne a b = (op_eq a b).map (fun r => !r) ∧
    (∃ v w : SimpleVector Nat, SimpleVector.ctor_init [1, 2] = .ok v ∧
      SimpleVector.ctor_init [1, 2] = .ok w ∧ op_eq v w = .ok true ∧ op_lt v w = .ok false) := by
  refine ⟨?_, ?_, ?_, ?_, ⟨⟨[some 1, some 2], 2, 2⟩, ⟨[some 1, some 2], 2, 2⟩, rfl, rfl, rfl, rfl⟩⟩
  · rw [op_eq_true_iff]
    simp only [SimpleVector.GetSize, subscript_ok_iff]
  · intro ha hb
    obtain ⟨r, hr⟩ := op_eq_returns a b
      (fun i hi => by obtain ⟨x, hx⟩ := ha i hi; exact ⟨x, subscript_ok_iff.mp hx⟩)
      (fun i hi => by obtain ⟨y, hy⟩ := hb i hi; exact ⟨y, subscript_ok_iff.mp hy⟩)
    exact ⟨r, hr, by simp only [op_ne, hr]⟩
  · intro a' b' hsa hsb ha hb
    have h := op_eq_congr a b a' b' hsa hsb
      (fun i hi => ArrayPtr.read_eq_read_iff.mp (ha i hi))
      (fun i hi => ArrayPtr.read_eq_read_iff.mp (hb i hi))
    exact ⟨h, by simp only [op_ne, h]⟩
  · unfold op_ne
    cases op_eq a b <;> rfl

/-- C14, at the containers `1, 2` of capacity 2 and `1, 2` of capacity 4 with a stale third
slot. -/
theorem op_eq_spec_witness :
    ((∀ i, i < (⟨[some 1, some 2], 2, 2⟩ : SimpleVector Nat).GetSize →
        ∃ x, (⟨[some 1, some 2], 2, 2⟩ : SimpleVector Nat).subscript i = .ok (some x)) ∧
      (∀ i, i < (⟨[some 1, some 2, some 7, none], 2, 4⟩ : SimpleVector Nat).GetSize →
        ∃ y, (⟨[some 1, some 2, some 7, none], 2, 4⟩ : SimpleVector Nat).subscript i
          = .ok (some y))) ∧
    ∃ r, op_eq (⟨[some 1, some 2], 2, 2⟩ : SimpleVector Nat) ⟨[some 1, some 2, some 7, none], 2, 4⟩
        = .ok r ∧
      op_ne (⟨[some 1, some 2], 2, 2⟩ : SimpleVector Nat) ⟨[some 1, some 2, some 7, none], 2, 4⟩
        = .ok (!r) :=
  have h1 : ∀ i, i < (⟨[some 1, some 2], 2, 2⟩ : SimpleVector Nat).GetSize →
      ∃ x, (⟨[some 1, some 2], 2, 2⟩ : SimpleVector Nat).subscript i = .ok (some x) := by
    intro i hi
    have hi2 : i < 2 := hi
    interval_cases i
    · exact ⟨1, rfl⟩
    · exact ⟨2, rfl⟩
  have h2 : ∀ i, i < (⟨[some 1, some 2, some 7, none], 2, 4⟩ : SimpleVector Nat).GetSize →
      ∃ y, (⟨[some 1, some 2, some 7, none], 2, 4⟩ : SimpleVector Nat).subscript i
        = .ok (some y) := by
    intro i hi
    have hi2 : i < 2 := hi
    interval_cases i
    · exact ⟨1, rfl⟩
    · exact ⟨2, rfl⟩
  ⟨⟨h1, h2⟩, (op_eq_spec _ _).2.1 h1 h2⟩

/-- C15. For containers with the element sequences `xs` and `ys`, `a < b` returns, and it is
true exactly when `xs` is lexicographically less than `ys` in the order `<` of the element
type (`List.lt`).  When `<` is irreflexive and `xs` is a proper prefix of `ys`, `a < b` is
true and `b < a` is false; so it is for `1, 9, 3` and `1, 9, 3, 0`. -/
theorem op_lt_spec {α : Type} [LT α] [DecidableRel (fun x y : α => x < y)]
    (a b : SimpleVector α) (xs ys : List α) (ha : HasElements a xs) (hb : HasElements b ys) :
    (∃ r, op_lt a b = .ok r ∧ (r = true ↔ List.lt xs ys)) ∧
    ((∀ x : α, ¬ x < x) → ∀ (y : α) (zs : List α), ys = xs ++ y :: zs →
      op_lt a b = .ok true ∧ op_lt b a = .ok false) ∧
    (∃ v w : SimpleVector Nat, SimpleVector.ctor_init [1, 9, 3] = .ok v ∧
      SimpleVector.ctor_init [1, 9, 3, 0] = .ok w ∧ op_lt v w = .ok true ∧
      op_lt w v = .ok false) := by
  refine ⟨op_lt_elements ha hb, ?_,
    ⟨⟨[some 1, some 9, some 3], 3, 3⟩, ⟨[some 1, some 9, some 3, some 0], 4, 4⟩,
      rfl, rfl, rfl, rfl⟩⟩
  intro hirr y zs hys
  obtain ⟨h1, h2⟩ := lt_proper_prefix hirr y zs xs
  rw [← hys] at h1 h2
  obtain ⟨r, hr, hiff⟩ := op_lt_elements ha hb
  obtain ⟨r', hr', hiff'⟩ := op_lt_elements hb ha
  have e1 : r = true := hiff.mpr h1
  have e2 : r' = false := by
    cases r' with
    | false => rfl
    | true => exact absurd (hiff'.mp rfl) h2
  rw [hr, hr', e1, e2]
  exact ⟨rfl, rfl⟩

/-- C15, at the containers `1, 9, 3` and `1, 9, 3, 0` of natural numbers. -/
theorem op_lt_spec_witness :
    (HasElements (⟨[some 1, some 9, some 3], 3, 3⟩ : SimpleVector Nat) [1, 9, 3] ∧
      HasElements (⟨[some 1, some 9, some 3, some 0], 4, 4⟩ : SimpleVector Nat) [1, 9, 3, 0] ∧
      (∀ x : Nat, ¬ x < x) ∧ [1, 9, 3, 0] = [1, 9, 3] ++ 0 :: []) ∧
    op_lt (⟨[some 1, some 9, some 3], 3, 3⟩ : SimpleVector Nat)
        ⟨[some 1, some 9, some 3, some 0], 4, 4⟩ = .ok true ∧
      op_lt (⟨[some 1, some 9, some 3, some 0], 4, 4⟩ : SimpleVector Nat)
        ⟨[some 1, some 9, some 3], 3, 3⟩ = .ok false :=
  have h1 : HasElements (⟨[some 1, some 9, some 3], 3, 3⟩ : SimpleVector Nat) [1, 9, 3] := by
    refine ⟨rfl, fun i hi => ?_⟩
    have hi2 : i < 3 := hi
    interval_cases i <;> rfl
  have h2 : HasElements (⟨[some 1, some 9, some 3, some 0], 4, 4⟩ : SimpleVector Nat)
      [1, 9, 3, 0] := by
    refine ⟨rfl, fun i hi => ?_⟩
    have hi2 : i < 4 := hi
    interval_cases i <;> rfl
  ⟨⟨h1, h2, Nat.lt_irrefl, rfl⟩,
    (op_lt_spec _ _ _ _ h1 h2).2.1 Nat.lt_irrefl 0 [] rfl⟩

/-- C16. The claim is that on every container reachable from the default constructor
`Insert(end(), std::move(x))` and `PushBack(std::move(x))` give the same size, capacity and
elements.  The container reached by `Resize(2^30)` is full with `2^30` elements: `Insert`
doubles `capacity_` in `size_t` and returns a container of capacity `2^31`, while `PushBack`
computes `static_cast<int>(size_) * 2`, which overflows `int`.  Below `2^30` elements the two
calls have the same outcome (`Insert_move_end_eq_PushBack_move`). -/
theorem Insert_end_returns_where_PushBack_overflows :
    ∃ v : SimpleVector Nat,
      (SimpleVector.ctor_default : SimpleVector Nat).Resize (2 ^ 30) = .ok v ∧
      v.GetSize = 2 ^ 30 ∧ v.GetCapacity = 2 ^ 30 ∧
      v.PushBack_move 7 = .error .undefined_behaviour ∧
      ∃ r, v.Insert_move v.GetSize (.object 7) = .ok (r, v.GetSize) ∧ r.GetSize = 2 ^ 30 + 1 ∧
        r.GetCapacity = 2 ^ 31 := by
  obtain ⟨v, hv, hs, hc, hl, _, _⟩ :=
    Resize_growth_ok (SimpleVector.ctor_default : SimpleVector Nat) (2 ^ 30)
      (Nat.le_refl 0) (Nat.le_refl 0) (Nat.pos_of_ne_zero (by decide))
  have hc2 : v.capacity_ = 2 ^ 30 := by rw [hc]; rfl
  have hfull : ¬ v.size_ < v.capacity_ := by omega
  have hnew : push_back_new_size v.size_ = .error .undefined_behaviour := by rw [hs]; rfl
  obtain ⟨r, hr, hrs, hrc, _⟩ :=
    Insert_move_ok v v.size_ 7 (by omega) (fun h => absurd h hfull) (by omega) (Nat.le_refl _)
  refine ⟨v, hv, hs, hc2, PushBack_move_new_size_error v 7 _ hfull hnew, r, hr, ?_, ?_⟩
  · show r.size_ = 2 ^ 30 + 1
    omega
  · show r.capacity_ = 2 ^ 31
    rw [hrc, if_neg hfull, if_neg (by omega), hc2]
    rfl

/-- C17. For a container with `size_ ≤ capacity_`: `Clear` and `PopBack` keep the capacity
(`PopBack` on an empty container changes nothing), `Resize(n)` with `n ≤ size` returns with
the same capacity, every returning `Erase` keeps the capacity, and every returning call of
`Resize`, `Reserve`, `PushBack` (both overloads) and `Insert` (both overloads) gives a
capacity that is not below the old one.  A call that has undefined behaviour has no state
after it.  When the buffer has exactly `capacity_` slots, `Erase`, `Resize`, `Reserve` and
`Insert` (of an object outside the storage) with valid arguments do return, and so do
`PushBack(Type&&)` below `2^30` elements and `PushBack(const Type&)` below the capacity. -/
theorem capacity_never_shrinks {α : Type} [Inhabited α] (v : SimpleVector α)
    (hsize : v.GetSize ≤ v.GetCapacity) :
    v.Clear.GetCapacity = v.GetCapacity ∧
    v.PopBack.GetCapacity = v.GetCapacity ∧
    (v.GetSize = 0 → v.PopBack = v) ∧
    (∀ n, n ≤ v.GetSize → ∃ r, v.Resize n = .ok r ∧ r.GetCapacity = v.GetCapacity) ∧
    (∀ p r it, v.Erase p = .ok (r, it) → r.GetCapacity = v.GetCapacity) ∧
    (∀ n r, v.Resize n = .ok r → v.GetCapacity ≤ r.GetCapacity) ∧
    (∀ n r, v.Reserve n = .ok r → v.GetCapacity ≤ r.GetCapacity) ∧
    (∀ x r, v.PushBack x = .ok r → v.GetCapacity ≤ r.GetCapacity) ∧
    (∀ x r, v.PushBack_move x = .ok r → v.GetCapacity ≤ r.GetCapacity) ∧
    (∀ p value r it, v.Insert p value = .ok (r, it) → v.GetCapacity ≤ r.GetCapacity) ∧
    (∀ p value r it, v.Insert_move p value = .ok (r, it) → v.GetCapacity ≤ r.GetCapacity) ∧
    (v.items_.length = v.GetCapacity →
      (∀ p, p < v.GetSize → ∃ r, v.Erase p = .ok (r, p)) ∧
      (∀ n, ∃ r, v.Resize n = .ok r) ∧
      (∀ n, ∃ r, v.Reserve n = .ok r) ∧
      (∀ p x, p ≤ v.GetSize →
        (∃ r, v.Insert p (.object x) = .ok (r, p)) ∧
          ∃ r, v.Insert_move p (.object x) = .ok (r, p)) ∧
      (∀ x, v.GetSize < 2 ^ 30 → ∃ r, v.PushBack_move x = .ok r) ∧
      (∀ x, v.GetSize < v.GetCapacity → ∃ r, v.PushBack x = .ok r)) := by
  have hs : v.size_ ≤ v.capacity_ := hsize
  refine ⟨rfl, ?_, ?_, ?_, fun p r it h => Erase_capacity_eq h,
    fun n r h => Resize_capacity_le h, fun n r h => Reserve_capacity_le h,
    fun x r h => PushBack_capacity_le hs h, fun x r h => PushBack_move_capacity_le hs h,
    fun p x r it h => Insert_capacity_le h, fun p x r it h => Insert_move_capacity_le h, ?_⟩
  · unfold SimpleVector.PopBack
    split_ifs <;> rfl
  · intro h0
    have h1 : v.size_ = 0 := h0
    simp [SimpleVector.PopBack, SimpleVector.IsEmpty, h1]
  · intro n hn
    obtain ⟨r, hr, hc, _⟩ := Resize_shrink_ok v n hs hn
    exact ⟨r, hr, hc⟩
  · intro hslots
    have hl : v.items_.length = v.capacity_ := hslots
    refine ⟨fun p hp => ?_, fun n => ?_, fun n => ?_, fun p x hp => ⟨?_, ?_⟩,
      fun x hx => ?_, fun x hx => ?_⟩
    · obtain ⟨r, hr, _⟩ := Erase_ok v p (by omega) hp
      exact ⟨r, hr⟩
    · by_cases h1 : n > v.capacity_
      · obtain ⟨r, hr, _⟩ := Resize_growth_ok v n (by omega) hs h1
        exact ⟨r, hr⟩
      · by_cases h2 : n ≤ v.size_
        · obtain ⟨r, hr, _⟩ := Resize_shrink_ok v n hs h2
          exact ⟨r, hr⟩
        · by_cases h3 : n < v.capacity_
          · obtain ⟨r, hr, _⟩ := Resize_within_ok v n (by omega) h3 (by omega)
            exact ⟨r, hr⟩
          · have h4 : ¬ (n > v.size_ ∧ n < v.capacity_) := fun h => h3 h.2
            have h5 : ¬ n < v.size_ := by omega
            exact ⟨v, by simp only [SimpleVector.Resize, if_neg h1, if_neg h4, if_neg h5]⟩
    · obtain ⟨r, hr, _⟩ := Reserve_ok v n (by omega) hs
      exact ⟨r, hr⟩
    · obtain ⟨r, hr, _⟩ :=
        Insert_ok v p (.object x) (by omega) (fun _ => by omega) hs hp (fun j hj => by cases hj)
      exact ⟨r, hr⟩
    · obtain ⟨r, hr, _⟩ := Insert_move_ok v p x (by omega) (fun _ => by omega) hs hp
      exact ⟨r, hr⟩
    · obtain ⟨r, hr, _⟩ := PushBack_move_ok v x (by omega) (fun _ => by omega) hx
      exact ⟨r, hr⟩
    · exact ⟨_, (PushBack_within_ok v x hx (by have : v.size_ < v.capacity_ := hx; omega)).1⟩

/-- C17, at the container `1, 2` of capacity 4. -/
theorem capacity_never_shrinks_witness :
    (⟨[some 1, some 2, none, none], 2, 4⟩ : SimpleVector Nat).GetSize
        ≤ (⟨[some 1, some 2, none, none], 2, 4⟩ : SimpleVector Nat).GetCapacity ∧
      (⟨[some 1, some 2, none, none], 2, 4⟩ : SimpleVector Nat).Clear.GetCapacity
        = (⟨[some 1, some 2, none, none], 2, 4⟩ : SimpleVector Nat).GetCapacity ∧
      (⟨[some 1, some 2, none, none], 2, 4⟩ : SimpleVector Nat).PopBack.GetCapacity
        = (⟨[some 1, some 2, none, none], 2, 4⟩ : SimpleVector Nat).GetCapacity :=
  ⟨by decide,
    (capacity_never_shrinks (⟨[some 1, some 2, none, none], 2, 4⟩ : SimpleVector Nat)
      (by decide)).1,
    (capacity_never_shrinks (⟨[some 1, some 2, none, none], 2, 4⟩ : SimpleVector Nat)
      (by decide)).2.1⟩

/-- C18. For a container whose buffer has exactly `capacity_` slots, with `size_ ≤ capacity_`,
and a position `p ≤ size_`: `Insert` at `p` (either overload) followed by `Erase` at `p`
returns a container with the size of the first one and the same elements below that size;
the capacity is not below the first one.  The argument of `Insert` is an object outside the
storage; for the copy overload it may also be an element of the container itself. -/
theorem Insert_Erase_round_trip {α : Type} (v : SimpleVector α) (p : Nat) (x : α)
    (hslots : v.items_.length = v.GetCapacity) (hsize : v.GetSize ≤ v.GetCapacity)
    (hp : p ≤ v.GetSize) :
    (∃ r r2, v.Insert p (.object x) = .ok (r, p) ∧ r.Erase p = .ok (r2, p) ∧
      r2.GetSize = v.GetSize ∧ v.GetCapacity ≤ r2.GetCapacity ∧
      ∀ i, i < v.GetSize → r2.subscript i = v.subscript i) ∧
    (∃ r r2, v.Insert_move p (.object x) = .ok (r, p) ∧ r.Erase p = .ok (r2, p) ∧
      r2.GetSize = v.GetSize ∧ v.GetCapacity ≤ r2.GetCapacity ∧
      ∀ i, i < v.GetSize → r2.subscript i = v.subscript i) ∧
    (∀ j, j < v.GetSize → ∃ r r2, v.Insert p (.element j) = .ok (r, p) ∧
      r.Erase p = .ok (r2, p) ∧ r2.GetSize = v.GetSize ∧ v.GetCapacity ≤ r2.GetCapacity ∧
      ∀ i, i < v.GetSize → r2.subscript i = v.subscript i) := by
  have hl : v.items_.length = v.capacity_ := hslots
  have hs : v.size_ ≤ v.capacity_ := hsize
  have hp2 : p ≤ v.size_ := hp
  have key : ∀ r : SimpleVector α, r.size_ = v.size_ + 1 →
      r.capacity_ = (if v.size_ < v.capacity_ then v.capacity_
        else if v.capacity_ = 0 then 1 else 2 * v.capacity_) →
      r.items_.length = (if v.size_ < v.capacity_ then v.items_.length else r.capacity_) →
      (∀ i, i < p → r.items_[i]? = v.items_[i]?) →
      (∀ i, p ≤ i → i < v.size_ → r.items_[i + 1]? = v.items_[i]?) →
      ∃ r2, r.Erase p = .ok (r2, p) ∧ r2.GetSize = v.GetSize ∧
        v.GetCapacity ≤ r2.GetCapacity ∧ ∀ i, i < v.GetSize → r2.subscript i = v.subscript i := by
    intro r h1 h2 h3 hlo hhi
    have hrlen : r.size_ ≤ r.items_.length := by
      rw [h3, h1]; split_ifs with hc
      · omega
      · rw [h2, if_neg hc]; split_ifs <;> omega
    obtain ⟨r2, hr2, e1, e2, _, elo, ehi⟩ := Erase_ok r p hrlen (by omega)
    refine ⟨r2, hr2, ?_, ?_, fun i hi => ?_⟩
    · show r2.size_ = v.size_
      omega
    · show v.capacity_ ≤ r2.capacity_
      rw [e2, h2]; split_ifs <;> omega
    · have hi2 : i < v.size_ := hi
      apply ArrayPtr.read_congr
      by_cases hip : i < p
      · rw [elo i hip, hlo i hip]
      · rw [ehi i (by omega) (by omega), hhi i (by omega) hi2]
  refine ⟨?_, ?_, fun j hj => ?_⟩
  · obtain ⟨r, hr, h1, h2, h3, hlo, _, _, hhi⟩ :=
      Insert_ok v p (.object x) (by omega) (fun _ => by omega) hs hp2 (fun j hj => by cases hj)
    obtain ⟨r2, h⟩ := key r h1 h2 h3 hlo hhi
    exact ⟨r, r2, hr, h⟩
  · obtain ⟨r, hr, h1, h2, h3, hlo, _, hhi⟩ :=
      Insert_move_ok v p x (by omega) (fun _ => by omega) hs hp2
    obtain ⟨r2, h⟩ := key r h1 h2 h3 hlo hhi
    exact ⟨r, r2, hr, h⟩
  · have hj2 : j < v.size_ := hj
    obtain ⟨r, hr, h1, h2, h3, hlo, _, _, hhi⟩ :=
      Insert_ok v p (.element j) (by omega) (fun _ => by omega) hs hp2
        (fun k hk => by cases hk; omega)
    obtain ⟨r2, h⟩ := key r h1 h2 h3 hlo hhi
    exact ⟨r, r2, hr, h⟩

/-- C18, at the container `1, 2, 3` (capacity 3, so that `Insert` reallocates), position 1
and value 9. -/
theorem Insert_Erase_round_trip_witness :
    ((⟨[some 1, some 2, some 3], 3, 3⟩ : SimpleVector Nat).items_.length
        = (⟨[some 1, some 2, some 3], 3, 3⟩ : SimpleVector Nat).GetCapacity ∧
      (⟨[some 1, some 2, some 3], 3, 3⟩ : SimpleVector Nat).GetSize
        ≤ (⟨[some 1, some 2, some 3], 3, 3⟩ : SimpleVector Nat).GetCapacity ∧
      1 ≤ (⟨[some 1, some 2, some 3], 3, 3⟩ : SimpleVector Nat).GetSize) ∧
    (∃ r r2, (⟨[some 1, some 2, some 3], 3, 3⟩ : SimpleVector Nat).Insert 1 (.object 9)
        = .ok (r, 1) ∧
      r.Erase 1 = .ok (r2, 1) ∧
      r2.GetSize = (⟨[some 1, some 2, some 3], 3, 3⟩ : SimpleVector Nat).GetSize ∧
      (⟨[some 1, some 2, some 3], 3, 3⟩ : SimpleVector Nat).GetCapacity ≤ r2.GetCapacity ∧
      ∀ i, i < (⟨[some 1, some 2, some 3], 3, 3⟩ : SimpleVector Nat).GetSize →
        r2.subscript i = (⟨[some 1, some 2, some 3], 3, 3⟩ : SimpleVector Nat).subscript i) :=
  ⟨⟨by decide, by decide, by decide⟩,
    (Insert_Erase_round_trip ⟨[some 1, some 2, some 3], 3, 3⟩ 1 9 (by decide) (by decide)
      (by decide)).1⟩

/-- C19. `Reserve(c)` with `c ≤ capacity_` returns the container unchanged.  For a container
whose `size_` elements lie in its storage, with `size_ ≤ capacity_`, `Reserve(c)` returns:
size and elements below the size are unchanged, the capacity is `max(capacity_, c)`, and for
`c > capacity_` the new buffer has `c` slots. -/
theorem Reserve_spec {α : Type} (v : SimpleVector α) (c : Nat) :
    (c ≤ v.GetCapacity → v.Reserve c = .ok v) ∧
    (v.GetSize ≤ v.items_.length → v.GetSize ≤ v.GetCapacity →
      ∃ r, v.Reserve c = .ok r ∧ r.GetSize = v.GetSize ∧
        (∀ i, i < v.GetSize → r.subscript i = v.subscript i) ∧
        r.GetCapacity = max v.GetCapacity c ∧
        (c > v.GetCapacity → r.items_.length = c)) := by
  constructor
  · intro hc
    have hn : ¬ c > v.capacity_ := Nat.not_lt.mpr hc
    simp only [SimpleVector.Reserve, if_neg hn]
  · intro hlen hsize
    obtain ⟨r, hr, h1, h2, h3, h4, _⟩ := Reserve_ok v c hlen hsize
    refine ⟨r, hr, h1, fun i hi => ArrayPtr.read_congr (h4 i hi), h2, fun hc => ?_⟩
    have hc2 : c > v.capacity_ := hc
    rw [h3, if_pos hc2]

/-- C19, at the container `1, 2` of capacity 2 and the requested capacities 5 and 1. -/
theorem Reserve_spec_witness :
    ((1 ≤ (⟨[some 1, some 2], 2, 2⟩ : SimpleVector Nat).GetCapacity ∧
      (⟨[some 1, some 2], 2, 2⟩ : SimpleVector Nat).GetSize
        ≤ (⟨[some 1, some 2], 2, 2⟩ : SimpleVector Nat).items_.length ∧
      (⟨[some 1, some 2], 2, 2⟩ : SimpleVector Nat).GetSize
        ≤ (⟨[some 1, some 2], 2, 2⟩ : SimpleVector Nat).GetCapacity)) ∧
    (⟨[some 1, some 2], 2, 2⟩ : SimpleVector Nat).Reserve 1 = .ok ⟨[some 1, some 2], 2, 2⟩ ∧
    ∃ r, (⟨[some 1, some 2], 2, 2⟩ : SimpleVector Nat).Reserve 5 = .ok r ∧
      r.GetSize = (⟨[some 1, some 2], 2, 2⟩ : SimpleVector Nat).GetSize ∧
      (∀ i, i < (⟨[some 1, some 2], 2, 2⟩ : SimpleVector Nat).GetSize →
        r.subscript i = (⟨[some 1, some 2], 2, 2⟩ : SimpleVector Nat).subscript i) ∧
      r.GetCapacity = max (⟨[some 1, some 2], 2, 2⟩ : SimpleVector Nat).GetCapacity 5 ∧
      (5 > (⟨[some 1, some 2], 2, 2⟩ : SimpleVector Nat).GetCapacity → r.items_.length = 5) :=
  ⟨⟨by decide, by decide, by decide⟩,
    (Reserve_spec (⟨[some 1, some 2], 2, 2⟩ : SimpleVector Nat) 1).1 (by decide),
    (Reserve_spec (⟨[some 1, some 2], 2, 2⟩ : SimpleVector Nat) 5).2 (by decide) (by decide)⟩

/-- C20. For an element type with a linear order and for containers with the element
sequences `xs` and `ys`, the six operators return; exactly one of `a < b`, `a == b`, `a > b`
is true; `a <= b` is the negation of `b < a`; and `a >= b` is the negation of `a < b`. -/
theorem comparison_operators_consistent {α : Type} [LinearOrder α] (a b : SimpleVector α)
    (xs ys : List α) (ha : HasElements a xs) (hb : HasElements b ys) :
    ∃ lt eq gt le ge ne : Bool,
      op_lt a b = .ok lt ∧ op_eq a b = .ok eq ∧ op_gt a b = .ok gt ∧ op_le a b = .ok le ∧
      op_ge a b = .ok ge ∧ op_ne a b = .ok ne ∧ op_lt b a = .ok gt ∧
      ((lt = true ∧ eq = false ∧ gt = false) ∨ (lt = false ∧ eq = true ∧ gt = false) ∨
        (lt = false ∧ eq = false ∧ gt = true)) ∧
      le = (!gt) ∧ ge = (!lt) ∧ ne = (!eq) := by
  obtain ⟨lt, hlt, ilt⟩ := op_lt_elements ha hb
  obtain ⟨gt, hgt, igt⟩ := op_lt_elements hb ha
  obtain ⟨eq, heq, ieq⟩ := op_eq_elements ha hb
  have htri := lt_trichotomy_list xs ys
  have hle : op_le a b = .ok (eq || lt) := by
    unfold op_le
    rw [heq]
    cases eq
    · simpa using hlt
    · rfl
  have hge : op_ge a b = .ok (eq || gt) := by
    unfold op_ge
    rw [heq]
    cases eq
    · simpa using hgt
    · rfl
  have hne : op_ne a b = .ok (!eq) := by simp only [op_ne, heq]
  refine ⟨lt, eq, gt, eq || lt, eq || gt, !eq, hlt, heq, hgt, hle, hge, hne, hgt, ?_⟩
  rcases htri with ⟨h1, h2, h3⟩ | ⟨h1, h2, h3⟩ | ⟨h1, h2, h3⟩
  · have e1 : lt = true := ilt.mpr h1
    have e2 : eq = false := by
      cases eq with
      | false => rfl
      | true => exact absurd (ieq.mp rfl) h2
    have e3 : gt = false := by
      cases gt with
      | false => rfl
      | true => exact absurd (igt.mp rfl) h3
    subst e1 e2 e3
    exact ⟨Or.inl ⟨rfl, rfl, rfl⟩, rfl, rfl, rfl⟩
  · have e1 : lt = false := by
      cases lt with
      | false => rfl
      | true => exact absurd (ilt.mp rfl) h1
    have e2 : eq = true := ieq.mpr h2
    have e3 : gt = false := by
      cases gt with
      | false => rfl
      | true => exact absurd (igt.mp rfl) h3
    subst e1 e2 e3
    exact ⟨Or.inr (Or.inl ⟨rfl, rfl, rfl⟩), rfl, rfl, rfl⟩
  · have e1 : lt = false := by
      cases lt with
      | false => rfl
      | true => exact absurd (ilt.mp rfl) h1
    have e2 : eq = false := by
      cases eq with
      | false => rfl
      | true => exact absurd (ieq.mp rfl) h2
    have e3 : gt = true := igt.mpr h3
    subst e1 e2 e3
    exact ⟨Or.inr (Or.inr ⟨rfl, rfl, rfl⟩), rfl, rfl, rfl⟩

/-- C20, at the containers `1, 9, 3` and `1, 9, 3, 0` of natural numbers. -/
theorem comparison_operators_consistent_witness :
    (HasElements (⟨[some 1, some 9, some 3], 3, 3⟩ : SimpleVector Nat) [1, 9, 3] ∧
      HasElements (⟨[some 1, some 9, some 3, some 0], 4, 4⟩ : SimpleVector Nat) [1, 9, 3, 0]) ∧
    ∃ lt eq gt le ge ne : Bool,
      op_lt (⟨[some 1, some 9, some 3], 3, 3⟩ : SimpleVector Nat)
        ⟨[some 1, some 9, some 3, some 0], 4, 4⟩ = .ok lt ∧
      op_eq (⟨[some 1, some 9, some 3], 3, 3⟩ : SimpleVector Nat)
        ⟨[some 1, some 9, some 3, some 0], 4, 4⟩ = .ok eq ∧
      op_gt (⟨[some 1, some 9, some 3], 3, 3⟩ : SimpleVector Nat)
        ⟨[some 1, some 9, some 3, some 0], 4, 4⟩ = .ok gt ∧
      op_le (⟨[some 1, some 9, some 3], 3, 3⟩ : SimpleVector Nat)
        ⟨[some 1, some 9, some 3, some 0], 4, 4⟩ = .ok le ∧
      op_ge (⟨[some 1, some 9, some 3], 3, 3⟩ : SimpleVector Nat)
        ⟨[some 1, some 9, some 3, some 0], 4, 4⟩ = .ok ge ∧
      op_ne (⟨[some 1, some 9, some 3], 3, 3⟩ : SimpleVector Nat)
        ⟨[some 1, some 9, some 3, some 0], 4, 4⟩ = .ok ne ∧
      op_lt (⟨[some 1, some 9, some 3, some 0], 4, 4⟩ : SimpleVector Nat)
        ⟨[some 1, some 9, some 3], 3, 3⟩ = .ok gt ∧
      ((lt = true ∧ eq = false ∧ gt = false) ∨ (lt = false ∧ eq = true ∧ gt = false) ∨
        (lt = false ∧ eq = false ∧ gt = true)) ∧
      le = (!gt) ∧ ge = (!lt) ∧ ne = (!eq) :=
  have h1 : HasElements (⟨[some 1, some 9, some 3], 3, 3⟩ : SimpleVector Nat) [1, 9, 3] := by
    refine ⟨rfl, fun i hi => ?_⟩
    have hi2 : i < 3 := hi
    interval_cases i <;> rfl
  have h2 : HasElements (⟨[some 1, some 9, some 3, some 0], 4, 4⟩ : SimpleVector Nat)
      [1, 9, 3, 0] := by
    refine ⟨rfl, fun i hi => ?_⟩
    have hi2 : i < 4 := hi
    interval_cases i <;> rfl
  ⟨⟨h1, h2⟩, comparison_operators_consistent _ _ _ _ h1 h2⟩

end Claims

end SimpleVec
